import Mathlib

/-!
# Truncated rational power series: `URatPSeriesFlint` (symengine/series_flint.h)

A shallow embedding of the special-function layer of `URatPSeriesFlint`:
`series_invert`, `series_exp`, `series_sin`, `series_cos`, `series_lambertw`
and `series_nthroot`, over dense rational coefficient lists.

* `fp_t` (flint `fmpq_polyxx`) is a list of rational coefficients, lowest degree
  first.  Trailing zeros are allowed; every observation of a polynomial goes
  through `get_coeff` and `degree`, which do not depend on them.
* C++ exceptions become `Except SeriesError`.
* `unsigned int` values are `ℕ`; `int` values are `ℤ`; the two `const short`
  locals of the source are converted with `toShort` (16-bit two's complement).
-/

namespace SymEngine

/-- The polynomial type `fp_t = flint::fmpq_polyxx`: dense coefficients, lowest degree first. -/
abbrev fp_t := List ℚ

/-- The failures of the layer, one constructor per `throw` site (or per failing backend call). -/
inductive SeriesError
  /-- The `std::runtime_error("Flint cannot handle Laurent polynomials")` of `series_invert`. -/
  | laurent
  /-- The `std::logic_error("sin(const) not Implemented")` of `series_sin`. -/
  | sin_const
  /-- The `std::logic_error("cos(const) not Implemented")` of `series_cos`. -/
  | cos_const
  /-- The `std::logic_error("lambertw(const) not Implemented")` of `series_lambertw`. -/
  | lambertw_const
  /-- The `std::runtime_error("Puiseux series not implemented.")` of `series_nthroot`. -/
  | puiseux
  /-- The `std::runtime_error("acos() not implemented")` of `series_acos`. -/
  | acos_unimplemented
  /-- The scalar root extraction `root` found no exact rational root. -/
  | no_exact_root
  /-- A flint primitive was called outside its domain (division by a zero scalar,
  `inv_series` / `exp_series` / `sin_series` / `cos_series` on a bad constant term). -/
  | flint_domain
deriving DecidableEq, Repr

/-! ## Ring backend (flint `fmpq_poly`) -/

/-- The coefficient accessor `s.get_coeff(k)`; coefficients past the stored ones are zero. -/
def get_coeff (s : fp_t) (k : ℕ) : ℚ := s.getD k 0

/-- The flint length of a polynomial: the number of coefficients up to the last nonzero one. -/
def norm_length (s : fp_t) : ℕ := (s.reverse.dropWhile fun c => decide (c = 0)).length

/-- The polynomial degree `s.degree()`; the zero polynomial has degree `-1`. -/
def degree (s : fp_t) : ℤ := (norm_length s : ℤ) - 1

/-- The constant polynomial `1` (`one.set_one()`, `fp_t(1)`). -/
def one : fp_t := [1]

/-- The zero polynomial (`set_zero()`). -/
def zero : fp_t := []

/-- Polynomial addition `a + b`. -/
def add (a b : fp_t) : fp_t :=
  (List.range (max a.length b.length)).map fun k => get_coeff a k + get_coeff b k

/-- Polynomial subtraction `a - b`. -/
def sub (a b : fp_t) : fp_t :=
  (List.range (max a.length b.length)).map fun k => get_coeff a k - get_coeff b k

/-- Polynomial negation `-a`. -/
def neg (a : fp_t) : fp_t := a.map fun x => -x

/-- Multiplication of a polynomial by a rational scalar, `a * c`. -/
def scalar_mul (a : fp_t) (c : ℚ) : fp_t := a.map fun x => x * c

/-- Division of a polynomial by a nonzero scalar. -/
def scalar_div (a : fp_t) (c : ℚ) : fp_t := a.map fun x => x / c

/-- Division of a polynomial by a rational scalar, `a / c`; flint raises on a zero divisor. -/
def scalar_div_checked (a : fp_t) (c : ℚ) : Except SeriesError fp_t :=
  if c = 0 then .error .flint_domain else .ok (scalar_div a c)

/-- Division of a rational by an integer, `prod /= fmpzxx(d)`; flint raises on a zero divisor. -/
def rat_div_int (q : ℚ) (d : ℤ) : Except SeriesError ℚ :=
  if d = 0 then .error .flint_domain else .ok (q / (d : ℚ))

/-- Coefficient `k` of the product of `a` and `b` (Cauchy product). -/
def mul_coeff (a b : fp_t) (k : ℕ) : ℚ :=
  ((List.range (k + 1)).map fun i => get_coeff a i * get_coeff b (k - i)).sum

/-- The truncated product `flint::mullow(a, b, n)`: the first `n` coefficients of `a * b`. -/
def mullow (a b : fp_t) (n : ℕ) : fp_t := (List.range n).map (mul_coeff a b)

/-- The full product `a * b`. -/
def mul_full (a b : fp_t) : fp_t := mullow a b (a.length + b.length)

/-- The first `n` coefficients of the inverse of `a`, by the convolution recurrence
`b₀ = 1/a₀`, `b_k = -(a₁ b_{k-1} + … + a_k b₀)/a₀`. -/
def inv_coeffs (a : fp_t) : ℕ → List ℚ
  | 0 => []
  | k + 1 =>
    inv_coeffs a k ++
      [if k = 0 then 1 / get_coeff a 0
       else -(((List.range k).map fun i =>
              get_coeff a (i + 1) * get_coeff (inv_coeffs a k) (k - 1 - i)).sum) / get_coeff a 0]

/-- Modelled from the spec: the backend primitive `flint::inv_series(a, n)` (`inv_trunc`), the
inverse of `a` truncated to `n` coefficients, defined only when the constant term is nonzero. -/
def inv_series (a : fp_t) (n : ℕ) : Except SeriesError fp_t :=
  if get_coeff a 0 = 0 then .error .flint_domain else .ok (inv_coeffs a n)

/-- Exact (untruncated) powers of a polynomial. -/
def pow_full (s : fp_t) : ℕ → fp_t
  | 0 => one
  | k + 1 => mul_full (pow_full s k) s

/-- The composition `c₀ + c₁ s + c₂ s² + …` truncated to its first `n` coefficients; for `s` with
zero constant term the terms `c_i s^i` with `i ≥ n` do not reach below degree `n`. -/
def compose_trunc (c : ℕ → ℚ) (s : fp_t) (n : ℕ) : fp_t :=
  (List.range n).map fun k =>
    ((List.range n).map fun i => c i * get_coeff (pow_full s i) k).sum

/-- Taylor coefficients of `exp`. -/
def exp_coeff (i : ℕ) : ℚ := 1 / (i.factorial : ℚ)

/-- Taylor coefficients of `sin`. -/
def sin_coeff (i : ℕ) : ℚ := if i % 2 = 1 then (-1) ^ (i / 2) / (i.factorial : ℚ) else 0

/-- Taylor coefficients of `cos`. -/
def cos_coeff (i : ℕ) : ℚ := if i % 2 = 0 then (-1) ^ (i / 2) / (i.factorial : ℚ) else 0

/-- Modelled from the spec: the backend primitive `exp_series(s, n)` (`exp_trunc`), the composition
`exp(s)` truncated to `n` coefficients; flint requires a zero constant term. -/
def exp_series (s : fp_t) (n : ℕ) : Except SeriesError fp_t :=
  if get_coeff s 0 = 0 then .ok (compose_trunc exp_coeff s n) else .error .flint_domain

/-- Modelled from the spec: the backend primitive `sin_series(s, n)` (`sin_trunc`), the composition
`sin(s)` truncated to `n` coefficients; flint requires a zero constant term. -/
def sin_series (s : fp_t) (n : ℕ) : Except SeriesError fp_t :=
  if get_coeff s 0 = 0 then .ok (compose_trunc sin_coeff s n) else .error .flint_domain

/-- Modelled from the spec: the backend primitive `cos_series(s, n)` (`cos_trunc`), the composition
`cos(s)` truncated to `n` coefficients; flint requires a zero constant term. -/
def cos_series (s : fp_t) (n : ℕ) : Except SeriesError fp_t :=
  if get_coeff s 0 = 0 then .ok (compose_trunc cos_coeff s n) else .error .flint_domain

/-! ## Machine integers and loops -/

/-- Conversion of an integer to a C++ `short` (16 bits, two's complement).  The converted values
are `unsigned int` expressions; since `2^16` divides `2^32` the 32-bit wrap need not be taken
first. -/
def toShort (z : ℤ) : ℤ := (z + 32768) % 65536 - 32768

/-- The loop `for (i = lo; i < lo + count; i++) body` over a state, stopping at the first throw. -/
def for_range {σ : Type} (body : ℕ → σ → Except SeriesError σ) : ℕ → ℕ → σ → Except SeriesError σ
  | _, 0, st => .ok st
  | lo, count + 1, st =>
    match body lo st with
    | .ok st1 => for_range body (lo + 1) count st1
    | .error e => .error e

/-- The range-based loop `for (const auto step : steps) body` over a state. -/
def for_steps {σ : Type} (body : ℕ → σ → Except SeriesError σ) : List ℕ → σ → Except SeriesError σ
  | [], st => .ok st
  | step :: rest, st =>
    match body step st with
    | .ok st1 => for_steps body rest st1
    | .error e => .error e

/-! ## Members of `URatPSeriesFlint` declared in the header and defined elsewhere -/

/-- The member `mul(s, r, prec)`: `flint::mullow`. -/
def mul (s r : fp_t) (prec : ℕ) : fp_t := mullow s r prec

/-- Modelled from the spec: the member `pow(s, n, prec)` for an exponent `n ≥ 0` (its definition
is not in the header): the power is computed by repeated truncated multiplication. -/
def pow (s : fp_t) (n : ℕ) (prec : ℕ) : fp_t :=
  match n with
  | 0 => one
  | k + 1 => mul (pow s k prec) s prec

/-- Modelled from the spec: the product `s * pow(var, e, prec)` (the definition of `pow` is not in
the header).  For `e < 0` this is "divide out `var^(-e)`", taken as the exact shift that drops
the `-e` lowest coefficients; for `e ≥ 0` it is the product with the power of `var`. -/
def mul_pow_var (s var : fp_t) (e : ℤ) (prec : ℕ) : fp_t :=
  if e < 0 then s.drop e.natAbs else mul_full s (pow var e.toNat prec)

/-- Modelled from the spec: the member `ldegree(s)` (its definition is not in the header), the
valuation: the lowest degree with a nonzero coefficient, and `0` for the zero polynomial, which
stores no coefficient. -/
def ldegree (s : fp_t) : ℕ :=
  if s.all (fun c => decide (c = 0)) then 0 else s.findIdx fun c => decide (c ≠ 0)

/-- The member `find_cf(s, var, deg)`. -/
def find_cf (s _var : fp_t) (deg : ℕ) : ℚ := get_coeff s deg

/-- The exact `n`-th root of a natural number, when there is one. -/
def nat_root (a n : ℕ) : Option ℕ := (List.range (a + 1)).find? fun r => decide (r ^ n = a)

/-- Modelled from the spec: the member `root(c, n)` (its definition is not in the header), the
exact `n`-th root of a rational scalar; it fails when no rational `n`-th root exists. -/
def root (c : ℚ) (n : ℕ) : Except SeriesError ℚ :=
  match nat_root c.num.natAbs n, nat_root c.den n with
  | some p, some q =>
    if c.num < 0 then
      if n % 2 = 1 then .ok (-((p : ℚ) / (q : ℚ))) else .error .no_exact_root
    else .ok ((p : ℚ) / (q : ℚ))
  | _, _ => .error .no_exact_root

/-! ## The special-function layer (series_flint.h) -/

/-- The function `series_invert` (lines 45-50). -/
def series_invert (s _var : fp_t) (prec : ℕ) : Except SeriesError fp_t :=
  if get_coeff s 0 ≠ 0 then inv_series s prec else .error .laurent

/-- The function `series_exp` (lines 57-59). -/
def series_exp (s _var : fp_t) (prec : ℕ) : Except SeriesError fp_t := exp_series s prec

/-- The loop state `(res_p, monom, prod)` of `series_sin` and `series_cos`. -/
structure TrigState where
  /-- The accumulated result `res_p`. -/
  res_p : fp_t
  /-- The running power `monom`. -/
  monom : fp_t
  /-- The running coefficient `prod`. -/
  prod : ℚ

/-- The common body of the loops of `series_sin` (lines 74-78) and `series_cos` (lines 97-101),
for the loop index `i` and the value `j` of the `const short` local. -/
def trig_body (j : ℤ) (ssquare : fp_t) (prec : ℕ) (i : ℕ) (st : TrigState) :
    Except SeriesError TrigState :=
  match (if i ≠ 0 then rat_div_int st.prod (1 - j) else .ok st.prod) with
  | .error e => .error e
  | .ok prod1 =>
    match rat_div_int prod1 j with
    | .error e => .error e
    | .ok prod2 =>
      .ok { res_p := add st.res_p (scalar_mul st.monom prod2)
            monom := mullow st.monom ssquare prec
            prod := prod2 }

/-- One iteration of the loop of `series_sin` (lines 72-79): `const short j = 2 * i + 1`. -/
def sin_body (ssquare : fp_t) (prec : ℕ) (i : ℕ) (st : TrigState) : Except SeriesError TrigState :=
  trig_body (toShort (2 * (i : ℤ) + 1)) ssquare prec i st

/-- The function `series_sin` (lines 60-81). -/
def series_sin (s _var : fp_t) (prec : ℕ) : Except SeriesError fp_t :=
  if get_coeff s 0 ≠ 0 then .error .sin_const
  else if degree s > 8 then sin_series s prec
  else
    let ssquare := mullow s s prec
    match for_range (sin_body ssquare prec) 0 (prec / 2)
        { res_p := zero, monom := s, prod := 1 } with
    | .ok st => .ok st.res_p
    | .error e => .error e

/-- One iteration of the loop of `series_cos` (lines 95-102): `const short j = 2 * i`. -/
def cos_body (ssquare : fp_t) (prec : ℕ) (i : ℕ) (st : TrigState) : Except SeriesError TrigState :=
  trig_body (toShort (2 * (i : ℤ))) ssquare prec i st

/-- The function `series_cos` (lines 83-104); the loop runs `i = 1, …, prec / 2`. -/
def series_cos (s _var : fp_t) (prec : ℕ) : Except SeriesError fp_t :=
  if get_coeff s 0 ≠ 0 then .error .cos_const
  else if degree s > 8 then cos_series s prec
  else
    let ssquare := mullow s s prec
    match for_range (cos_body ssquare prec) 1 (prec / 2)
        { res_p := one, monom := ssquare, prod := 1 } with
    | .ok st => .ok st.res_p
    | .error e => .error e

/-- The function `series_acos` (lines 121-123). -/
def series_acos (_s _var : fp_t) (_prec : ℕ) : Except SeriesError fp_t :=
  .error .acos_unimplemented

/-- One iteration of the Newton loop of `series_lambertw` (lines 143-146). -/
def lambertw_body (s var : fp_t) (step : ℕ) (p1 : fp_t) : Except SeriesError fp_t :=
  match series_exp p1 var step with
  | .error e => .error e
  | .ok e =>
    let p2 := sub (mul e p1 step) s
    match series_invert (mul e (add p1 one) step) var step with
    | .error err => .error err
    | .ok p3 => .ok (sub p1 (mul p2 p3 step))

/-- The function `series_lambertw` (lines 133-149).  `step_list` is the convergence schedule
builder of `series.h`, taken as a parameter. -/
def series_lambertw (step_list : ℕ → List ℕ) (s var : fp_t) (prec : ℕ) :
    Except SeriesError fp_t :=
  if get_coeff s 0 ≠ 0 then .error .lambertw_const
  else for_steps (lambertw_body s var) (step_list prec) zero

/-- One iteration of the Newton loop of `series_nthroot` (lines 180-181); `n` is the exponent
after the sign has been removed. -/
def nthroot_body (sn : fp_t) (n : ℕ) (step : ℕ) (res_p : fp_t) : Except SeriesError fp_t :=
  let t := mul (pow res_p (n + 1) step) sn step
  .ok (add res_p (scalar_div (sub res_p t) (n : ℚ)))

/-- The body of `series_nthroot` after the Puiseux check (lines 165-190), for the valuation
`ldeg` read at line 161. -/
def nthroot_main (step_list : ℕ → List ℕ) (s : fp_t) (n : ℤ) (var : fp_t) (prec : ℕ) (ldeg : ℤ) :
    Except SeriesError fp_t :=
  let ss : fp_t := if ldeg ≠ 0 then mul_pow_var s var (-ldeg) prec else s
  let ct : ℚ := find_cf ss var 0
  let do_inv : Bool := decide (n < 0)
  let m : ℤ := if n < 0 then -n else n
  match root ct m.toNat with
  | .error e => .error e
  | .ok ctroot =>
    match scalar_div_checked ss ct with
    | .error e => .error e
    | .ok sn =>
      match for_steps (nthroot_body sn m.toNat) (step_list prec) one with
      | .error e => .error e
      | .ok res_p =>
        let res_p1 : fp_t :=
          if ldeg ≠ 0 then mul_pow_var res_p var (Int.tdiv ldeg m) prec else res_p
        if do_inv then .ok (scalar_mul res_p1 ctroot)
        else
          match series_invert res_p1 var prec with
          | .error e => .error e
          | .ok r => .ok (scalar_mul r ctroot)

/-- The function `series_nthroot` (lines 151-190).  `step_list` is the convergence schedule
builder of `series.h`, taken as a parameter. -/
def series_nthroot (step_list : ℕ → List ℕ) (s : fp_t) (n : ℤ) (var : fp_t) (prec : ℕ) :
    Except SeriesError fp_t :=
  if n = 0 then .ok one
  else if n = 1 then .ok s
  else if n = -1 then series_invert s var prec
  else
    let ldeg : ℤ := toShort (ldegree s)
    if Int.tmod ldeg n ≠ 0 then .error .puiseux
    else nthroot_main step_list s n var prec ldeg

open PowerSeries

/-! ## Proof-level definitions -/

/-- The formal power series with the coefficients of a polynomial. -/
def toPS (s : fp_t) : ℚ⟦X⟧ := PowerSeries.mk (get_coeff s)

/-- Two power series agree on every coefficient below degree `n`. -/
def CongrX (n : ℕ) (A B : ℚ⟦X⟧) : Prop := (X : ℚ⟦X⟧) ^ n ∣ A - B

/-- The `k`-th coefficient of the inverse series of `a`. -/
def inv_b (a : fp_t) (k : ℕ) : ℚ := get_coeff (inv_coeffs a (k + 1)) k

/-- Each schedule entry is at most twice the precision reached before it. -/
def schedule_ok : ℕ → List ℕ → Prop
  | _, [] => True
  | k, step :: rest => step ≤ 2 * k ∧ schedule_ok step rest

/-- The convergence schedule of the claims: it starts at a precision `≤ 2`, each later entry is at
most twice the previous one, and the last entry is `prec`. -/
def valid_schedule (steps : List ℕ) (prec : ℕ) : Prop :=
  (∃ first, steps.head? = some first ∧ first ≤ 2) ∧
    steps.Chain' (fun a b => b ≤ 2 * a) ∧ steps.getLast? = some prec

/-- The loop invariant of `series_lambertw`: the iterate has no constant term and solves
`p·exp(p) = s` below degree `k`. -/
def lambertw_inv (s : fp_t) (k : ℕ) (p : fp_t) : Prop :=
  CongrX 1 (toPS p) 0 ∧
    CongrX k (toPS p * ∑ i in Finset.range k, C ℚ (exp_coeff i) * toPS p ^ i) (toPS s)

/-- One update of the running coefficient `prod` in the loops of `series_sin` / `series_cos`. -/
def prod_step (j : ℤ) (i : ℕ) (prev : ℚ) : ℚ :=
  (if i ≠ 0 then prev / ((1 - j : ℤ) : ℚ) else prev) / (j : ℚ)

/-- The running coefficient after `t` iterations of a loop that starts at index `lo`. -/
def prod_iter (jf : ℕ → ℤ) (lo : ℕ) : ℕ → ℚ
  | 0 => 1
  | t + 1 => prod_step (jf (lo + t)) (lo + t) (prod_iter jf lo t)

/-- The running power `monom` after `t` iterations. -/
def monom_iter (ssquare : fp_t) (prec : ℕ) (m0 : fp_t) : ℕ → fp_t
  | 0 => m0
  | t + 1 => mullow (monom_iter ssquare prec m0 t) ssquare prec

/-- Equality of results is decidable. -/
instance decEqResult : DecidableEq (Except SeriesError fp_t) := fun a b =>
  match a, b with
  | .ok x, .ok y =>
    if h : x = y then isTrue (congrArg Except.ok h)
    else isFalse (fun h1 => h (Except.ok.inj h1))
  | .error x, .error y =>
    if h : x = y then isTrue (congrArg Except.error h)
    else isFalse (fun h1 => h (Except.error.inj h1))
  | .ok _, .error _ => isFalse (fun h => Except.noConfusion h)
  | .error _, .ok _ => isFalse (fun h => Except.noConfusion h)

/-- The loop state of `series_sin` for the negated series. -/
def neg_state (st : TrigState) : TrigState :=
  { res_p := neg st.res_p, monom := neg st.monom, prod := st.prod }

/-! ## Theorems -/

theorem coeff_toPS (s : fp_t) (k : ℕ) : coeff ℚ k (toPS s) = get_coeff s k := by
  simp [toPS]

theorem get_coeff_of_length_le (s : fp_t) (k : ℕ) (h : s.length ≤ k) : get_coeff s k = 0 := by
  unfold get_coeff
  rw [List.getD_eq_default _ _ h]

theorem get_coeff_map_range (f : ℕ → ℚ) (n k : ℕ) :
    get_coeff ((List.range n).map f) k = if k < n then f k else 0 := by
  unfold get_coeff
  split_ifs with h
  · rw [List.getD_eq_getElem _ _ (by simpa using h)]
    simp
  · rw [List.getD_eq_default _ _ (by simpa using h)]

theorem get_coeff_add (a b : fp_t) (k : ℕ) :
    get_coeff (add a b) k = get_coeff a k + get_coeff b k := by
  unfold add
  rw [get_coeff_map_range]
  split_ifs with h
  · rfl
  · have h1 : a.length ≤ k := le_trans (le_max_left _ _) (not_lt.mp h)
    have h2 : b.length ≤ k := le_trans (le_max_right _ _) (not_lt.mp h)
    rw [get_coeff_of_length_le a k h1, get_coeff_of_length_le b k h2, add_zero]

theorem get_coeff_sub (a b : fp_t) (k : ℕ) :
    get_coeff (sub a b) k = get_coeff a k - get_coeff b k := by
  unfold sub
  rw [get_coeff_map_range]
  split_ifs with h
  · rfl
  · have h1 : a.length ≤ k := le_trans (le_max_left _ _) (not_lt.mp h)
    have h2 : b.length ≤ k := le_trans (le_max_right _ _) (not_lt.mp h)
    rw [get_coeff_of_length_le a k h1, get_coeff_of_length_le b k h2, sub_zero]

theorem get_coeff_map (f : ℚ → ℚ) (hf : f 0 = 0) (a : fp_t) (k : ℕ) :
    get_coeff (a.map f) k = f (get_coeff a k) := by
  unfold get_coeff
  by_cases h : k < a.length
  · rw [List.getD_eq_getElem _ _ (by simpa using h), List.getD_eq_getElem _ _ h]
    simp
  · rw [List.getD_eq_default _ _ (by simpa using h), List.getD_eq_default _ _ (by simpa using h), hf]

theorem get_coeff_scalar_mul (a : fp_t) (c : ℚ) (k : ℕ) :
    get_coeff (scalar_mul a c) k = get_coeff a k * c := by
  unfold scalar_mul
  rw [get_coeff_map _ (by simp)]

theorem get_coeff_scalar_div (a : fp_t) (c : ℚ) (k : ℕ) :
    get_coeff (scalar_div a c) k = get_coeff a k / c := by
  unfold scalar_div
  rw [get_coeff_map _ (by simp)]

theorem get_coeff_one (k : ℕ) : get_coeff one k = if k = 0 then 1 else 0 := by
  cases k <;> simp [one, get_coeff]

theorem get_coeff_zero (k : ℕ) : get_coeff zero k = 0 := by
  simp [zero, get_coeff]

theorem list_sum_range (f : ℕ → ℚ) (n : ℕ) :
    ((List.range n).map f).sum = ∑ i in Finset.range n, f i := by
  induction n with
  | zero => simp
  | succ n ih => rw [List.sum_range_succ, Finset.sum_range_succ, ih]

theorem mul_coeff_eq (a b : fp_t) (k : ℕ) :
    mul_coeff a b k = coeff ℚ k (toPS a * toPS b) := by
  unfold mul_coeff
  rw [list_sum_range, PowerSeries.coeff_mul, Finset.Nat.sum_antidiagonal_eq_sum_range_succ_mk]
  simp [coeff_toPS]

theorem get_coeff_mullow (a b : fp_t) (n k : ℕ) :
    get_coeff (mullow a b n) k = if k < n then coeff ℚ k (toPS a * toPS b) else 0 := by
  unfold mullow
  rw [get_coeff_map_range, mul_coeff_eq]

theorem toPS_add (a b : fp_t) : toPS (add a b) = toPS a + toPS b := by
  ext k; simp [coeff_toPS, get_coeff_add]

theorem toPS_sub (a b : fp_t) : toPS (sub a b) = toPS a - toPS b := by
  ext k; simp [coeff_toPS, get_coeff_sub]

theorem toPS_scalar_mul (a : fp_t) (c : ℚ) : toPS (scalar_mul a c) = C ℚ c * toPS a := by
  ext k; simp [coeff_toPS, get_coeff_scalar_mul, mul_comm]

theorem toPS_scalar_div (a : fp_t) (c : ℚ) : toPS (scalar_div a c) = C ℚ c⁻¹ * toPS a := by
  ext k; simp [coeff_toPS, get_coeff_scalar_div, div_eq_inv_mul]

theorem toPS_one : toPS one = 1 := by
  ext k; simp [coeff_toPS, get_coeff_one, PowerSeries.coeff_one]

theorem toPS_zero : toPS zero = 0 := by
  ext k; simp [coeff_toPS, get_coeff_zero]

theorem coeff_toPS_mul_of_le (a b : fp_t) (k : ℕ) (h : a.length + b.length ≤ k) :
    coeff ℚ k (toPS a * toPS b) = 0 := by
  rw [PowerSeries.coeff_mul]
  apply Finset.sum_eq_zero
  intro p hp
  rw [Finset.mem_antidiagonal] at hp
  by_cases h1 : a.length ≤ p.1
  · rw [coeff_toPS, get_coeff_of_length_le a _ h1, zero_mul]
  · rw [coeff_toPS, coeff_toPS, get_coeff_of_length_le b _ (by omega), mul_zero]

theorem toPS_mul_full (a b : fp_t) : toPS (mul_full a b) = toPS a * toPS b := by
  ext k
  rw [coeff_toPS]
  unfold mul_full
  rw [get_coeff_mullow]
  split_ifs with h
  · rfl
  · rw [coeff_toPS_mul_of_le a b k (not_lt.mp h)]

theorem toPS_pow_full (s : fp_t) (i : ℕ) : toPS (pow_full s i) = toPS s ^ i := by
  induction i with
  | zero => simp [pow_full, toPS_one]
  | succ i ih => rw [pow_full, toPS_mul_full, ih, pow_succ]

theorem congrX_iff (n : ℕ) (A B : ℚ⟦X⟧) :
    CongrX n A B ↔ ∀ k < n, coeff ℚ k A = coeff ℚ k B := by
  unfold CongrX
  rw [PowerSeries.X_pow_dvd_iff]
  constructor
  · intro h k hk
    have := h k hk
    rw [map_sub] at this
    exact sub_eq_zero.mp this
  · intro h k hk
    rw [map_sub, h k hk, sub_self]

theorem CongrX.refl (n : ℕ) (A : ℚ⟦X⟧) : CongrX n A A := by
  unfold CongrX; simp

theorem CongrX.of_eq {n : ℕ} {A B : ℚ⟦X⟧} (h : A = B) : CongrX n A B := by
  subst h; exact CongrX.refl n A

theorem CongrX.symm {n : ℕ} {A B : ℚ⟦X⟧} (h : CongrX n A B) : CongrX n B A := by
  unfold CongrX at *
  have : B - A = -(A - B) := by ring
  rw [this]
  exact (dvd_neg).mpr h

theorem CongrX.trans {n : ℕ} {A B D : ℚ⟦X⟧} (h1 : CongrX n A B) (h2 : CongrX n B D) :
    CongrX n A D := by
  unfold CongrX at *
  have : A - D = (A - B) + (B - D) := by ring
  rw [this]
  exact dvd_add h1 h2

theorem CongrX.add {n : ℕ} {A B A1 B1 : ℚ⟦X⟧} (h1 : CongrX n A B) (h2 : CongrX n A1 B1) :
    CongrX n (A + A1) (B + B1) := by
  unfold CongrX at *
  have : A + A1 - (B + B1) = (A - B) + (A1 - B1) := by ring
  rw [this]
  exact dvd_add h1 h2

theorem CongrX.sub {n : ℕ} {A B A1 B1 : ℚ⟦X⟧} (h1 : CongrX n A B) (h2 : CongrX n A1 B1) :
    CongrX n (A - A1) (B - B1) := by
  unfold CongrX at *
  have : A - A1 - (B - B1) = (A - B) - (A1 - B1) := by ring
  rw [this]
  exact dvd_sub h1 h2

theorem CongrX.mul {n : ℕ} {A B A1 B1 : ℚ⟦X⟧} (h1 : CongrX n A B) (h2 : CongrX n A1 B1) :
    CongrX n (A * A1) (B * B1) := by
  unfold CongrX at *
  have : A * A1 - B * B1 = (A - B) * A1 + B * (A1 - B1) := by ring
  rw [this]
  exact dvd_add (Dvd.dvd.mul_right h1 _) (Dvd.dvd.mul_left h2 _)

theorem CongrX.mul_left {n : ℕ} {A B : ℚ⟦X⟧} (D : ℚ⟦X⟧) (h : CongrX n A B) :
    CongrX n (D * A) (D * B) := CongrX.mul (CongrX.refl n D) h

theorem CongrX.mul_right {n : ℕ} {A B : ℚ⟦X⟧} (D : ℚ⟦X⟧) (h : CongrX n A B) :
    CongrX n (A * D) (B * D) := CongrX.mul h (CongrX.refl n D)

theorem CongrX.pow {n : ℕ} {A B : ℚ⟦X⟧} (h : CongrX n A B) (m : ℕ) :
    CongrX n (A ^ m) (B ^ m) := by
  induction m with
  | zero => simp only [pow_zero]; exact CongrX.refl n 1
  | succ m ih => rw [pow_succ, pow_succ]; exact CongrX.mul ih h

theorem CongrX.mono {n m : ℕ} {A B : ℚ⟦X⟧} (h : CongrX n A B) (hm : m ≤ n) : CongrX m A B := by
  unfold CongrX at *
  exact dvd_trans (pow_dvd_pow X hm) h

theorem CongrX.zero_left (A B : ℚ⟦X⟧) : CongrX 0 A B := by
  unfold CongrX; simp

/-- A product of a multiple of `X^i` and a multiple of `X^j` vanishes below degree `i + j`. -/
theorem CongrX.mul_zero {i j : ℕ} {A B : ℚ⟦X⟧} (h1 : CongrX i A 0) (h2 : CongrX j B 0) :
    CongrX (i + j) (A * B) 0 := by
  unfold CongrX at *
  rw [sub_zero] at *
  rw [pow_add]
  exact mul_dvd_mul h1 h2

theorem CongrX.pow_of_zero {i : ℕ} {A : ℚ⟦X⟧} (h : CongrX i A 0) (m : ℕ) :
    CongrX (i * m) (A ^ m) 0 := by
  unfold CongrX at *
  rw [sub_zero] at *
  rw [pow_mul]
  exact pow_dvd_pow_of_dvd h m

theorem congrX_one_zero_iff (A : ℚ⟦X⟧) : CongrX 1 A 0 ↔ coeff ℚ 0 A = 0 := by
  rw [congrX_iff]
  constructor
  · intro h; simpa using h 0 (by norm_num)
  · intro h k hk
    have : k = 0 := by omega
    subst this
    simpa using h

theorem toPS_mullow_congr (a b : fp_t) (n : ℕ) :
    CongrX n (toPS (mullow a b n)) (toPS a * toPS b) := by
  rw [congrX_iff]
  intro k hk
  rw [coeff_toPS, get_coeff_mullow, if_pos hk]

theorem toPS_pow_congr (s : fp_t) (m n : ℕ) : CongrX n (toPS (pow s m n)) (toPS s ^ m) := by
  induction m with
  | zero => simp only [pow, toPS_one, pow_zero]; exact CongrX.refl n 1
  | succ m ih =>
    rw [pow, mul, pow_succ]
    exact (toPS_mullow_congr _ _ n).trans (CongrX.mul_right _ ih)

/-- Congruence of polynomials below degree `n`, in terms of their coefficients. -/
theorem congrX_toPS_iff (n : ℕ) (a b : fp_t) :
    CongrX n (toPS a) (toPS b) ↔ ∀ k < n, get_coeff a k = get_coeff b k := by
  rw [congrX_iff]
  simp only [coeff_toPS]

/-! ### The inverse series -/

theorem length_inv_coeffs (a : fp_t) (n : ℕ) : (inv_coeffs a n).length = n := by
  induction n with
  | zero => rfl
  | succ n ih => simp [inv_coeffs, ih]

theorem get_coeff_append_left (l1 l2 : List ℚ) (k : ℕ) (h : k < l1.length) :
    get_coeff (l1 ++ l2) k = get_coeff l1 k := by
  unfold get_coeff
  rw [List.getD_eq_getElem _ _ (by simp; omega), List.getD_eq_getElem _ _ h]
  exact List.getElem_append_left h

theorem get_coeff_append_length (l1 : List ℚ) (x : ℚ) :
    get_coeff (l1 ++ [x]) l1.length = x := by
  unfold get_coeff
  rw [List.getD_eq_getElem _ _ (by simp)]
  simp

theorem get_coeff_inv_coeffs (a : fp_t) (n k : ℕ) (h : k < n) :
    get_coeff (inv_coeffs a n) k = inv_b a k := by
  induction n with
  | zero => omega
  | succ n ih =>
    by_cases hk : k = n
    · subst hk; rfl
    · have hlt : k < n := by omega
      rw [inv_coeffs, get_coeff_append_left _ _ _ (by rw [length_inv_coeffs]; exact hlt)]
      exact ih hlt

theorem inv_b_zero (a : fp_t) : inv_b a 0 = 1 / get_coeff a 0 := by
  simp [inv_b, inv_coeffs, get_coeff]

theorem inv_b_succ (a : fp_t) (k : ℕ) :
    inv_b a (k + 1) =
      -(∑ i in Finset.range (k + 1), get_coeff a (i + 1) * inv_b a (k - i)) / get_coeff a 0 := by
  unfold inv_b
  rw [inv_coeffs]
  have hlen : (inv_coeffs a (k + 1)).length = k + 1 := length_inv_coeffs a (k + 1)
  have := get_coeff_append_length (inv_coeffs a (k + 1))
    (if k + 1 = 0 then 1 / get_coeff a 0
       else -(((List.range (k + 1)).map fun i =>
              get_coeff a (i + 1) * get_coeff (inv_coeffs a (k + 1)) (k + 1 - 1 - i)).sum)
                / get_coeff a 0)
  rw [hlen] at this
  rw [this, if_neg (by omega), list_sum_range]
  congr 2
  apply Finset.sum_congr rfl
  intro i hi
  rw [Finset.mem_range] at hi
  rw [get_coeff_inv_coeffs a (k + 1) (k + 1 - 1 - i) (by omega)]
  unfold inv_b
  congr 2

theorem toPS_mul_inv_b (a : fp_t) (h : get_coeff a 0 ≠ 0) :
    toPS a * PowerSeries.mk (inv_b a) = 1 := by
  ext k
  rw [PowerSeries.coeff_mul, Finset.Nat.sum_antidiagonal_eq_sum_range_succ_mk,
    Finset.sum_range_succ', PowerSeries.coeff_one]
  simp only [coeff_toPS, coeff_mk]
  cases k with
  | zero =>
    simp only [Finset.range_zero, Finset.sum_empty, zero_add, Nat.sub_zero, if_true]
    rw [inv_b_zero]; field_simp
  | succ k =>
    rw [if_neg (by omega)]
    simp only [Nat.sub_zero, Nat.add_sub_add_right]
    rw [inv_b_succ]
    field_simp
    ring

theorem toPS_inv_coeffs_congr (a : fp_t) (n : ℕ) :
    CongrX n (toPS (inv_coeffs a n)) (PowerSeries.mk (inv_b a)) := by
  rw [congrX_iff]
  intro k hk
  rw [coeff_toPS, coeff_mk, get_coeff_inv_coeffs a n k hk]

/-- The truncated inverse is a right inverse below the truncation degree. -/
theorem toPS_mul_inv_coeffs (a : fp_t) (n : ℕ) (h : get_coeff a 0 ≠ 0) :
    CongrX n (toPS a * toPS (inv_coeffs a n)) 1 := by
  have h1 := CongrX.mul_left (toPS a) (toPS_inv_coeffs_congr a n)
  rw [toPS_mul_inv_b a h] at h1
  exact h1

/-- Inverses modulo `X^n` are unique. -/
theorem CongrX.inv_unique {n : ℕ} {A B D : ℚ⟦X⟧} (h1 : CongrX n (A * B) 1)
    (h2 : CongrX n (A * D) 1) : CongrX n B D := by
  have e1 : CongrX n (B * (A * D)) (B * 1) := CongrX.mul_left B h2
  have e2 : CongrX n ((A * B) * D) (1 * D) := CongrX.mul_right D h1
  have e3 : B * (A * D) = (A * B) * D := by ring
  rw [e3, mul_one] at e1
  rw [one_mul] at e2
  exact e1.symm.trans e2

/-! ### The scalar root -/

theorem nat_root_sound (a n p : ℕ) (h : nat_root a n = some p) : p ^ n = a := by
  unfold nat_root at h
  have := List.find?_some h
  simpa using this

theorem nat_root_complete (r n : ℕ) (hn : 1 ≤ n) :
    ∃ p, nat_root (r ^ n) n = some p ∧ p ^ n = r ^ n := by
  have hsome : (nat_root (r ^ n) n).isSome := by
    unfold nat_root
    rw [List.find?_isSome]
    refine ⟨r, ?_, by simp⟩
    rw [List.mem_range]
    have : r ≤ r ^ n := Nat.le_self_pow (by omega) r
    omega
  obtain ⟨p, hp⟩ := Option.isSome_iff_exists.mp hsome
  exact ⟨p, hp, nat_root_sound _ _ _ hp⟩

theorem rat_eq_natAbs_div (c : ℚ) (h : 0 ≤ c.num) : c = (c.num.natAbs : ℚ) / (c.den : ℚ) := by
  have h1 : ((c.num.natAbs : ℤ) : ℚ) = (c.num : ℚ) := by
    rw [Int.natAbs_of_nonneg h]
  have h2 : (c.num.natAbs : ℚ) = (c.num : ℚ) := by
    rw [← h1, Int.cast_natCast]
  rw [h2, Rat.num_div_den]

theorem rat_eq_neg_natAbs_div (c : ℚ) (h : c.num < 0) :
    c = -((c.num.natAbs : ℚ) / (c.den : ℚ)) := by
  have h1 : ((c.num.natAbs : ℤ) : ℚ) = -(c.num : ℚ) := by
    rw [Int.ofNat_natAbs_of_nonpos (le_of_lt h)]; push_cast; ring
  have h2 : (c.num.natAbs : ℚ) = -(c.num : ℚ) := by
    rw [← h1, Int.cast_natCast]
  rw [h2, neg_div, neg_neg, Rat.num_div_den]

/-- A root returned by `root` is an exact root. -/
theorem root_sound (c : ℚ) (n : ℕ) (r : ℚ) (h : root c n = .ok r) : r ^ n = c := by
  unfold root at h
  split at h
  · rename_i p q hp hq
    have hp1 := nat_root_sound _ _ _ hp
    have hq1 := nat_root_sound _ _ _ hq
    split_ifs at h with h1 h2
    · cases h
      have hodd : Odd n := Nat.odd_iff.mpr h2
      rw [Odd.neg_pow hodd, div_pow]
      have e1 : (p : ℚ) ^ n = (c.num.natAbs : ℚ) := by exact_mod_cast hp1
      have e2 : (q : ℚ) ^ n = (c.den : ℚ) := by exact_mod_cast hq1
      rw [e1, e2]
      exact (rat_eq_neg_natAbs_div c h1).symm
    · cases h
      rw [div_pow]
      have e1 : (p : ℚ) ^ n = (c.num.natAbs : ℚ) := by exact_mod_cast hp1
      have e2 : (q : ℚ) ^ n = (c.den : ℚ) := by exact_mod_cast hq1
      rw [e1, e2]
      exact (rat_eq_natAbs_div c (not_lt.mp h1)).symm
  · cases h

/-- The function `root` finds a root whenever a rational `n`-th root exists. -/
theorem root_complete (c : ℚ) (n : ℕ) (hn : 1 ≤ n) (h : ∃ q : ℚ, q ^ n = c) :
    ∃ r, root c n = .ok r ∧ r ^ n = c := by
  obtain ⟨q0, hq0⟩ := h
  have hnum : c.num.natAbs = q0.num.natAbs ^ n := by
    rw [← hq0, Rat.num_pow, Int.natAbs_pow]
  have hden : c.den = q0.den ^ n := by
    rw [← hq0, Rat.den_pow]
  obtain ⟨p, hp, _⟩ := nat_root_complete q0.num.natAbs n hn
  obtain ⟨q, hq, _⟩ := nat_root_complete q0.den n hn
  rw [← hnum] at hp
  rw [← hden] at hq
  have hodd : c.num < 0 → n % 2 = 1 := by
    intro hneg
    by_contra hcon
    have heven : Even n := Nat.even_iff.mpr (by omega)
    have : 0 ≤ q0.num ^ n := Even.pow_nonneg heven _
    rw [← hq0, Rat.num_pow] at hneg
    omega
  have hex : ∃ r, root c n = .ok r := by
    unfold root
    rw [hp, hq]
    by_cases h1 : c.num < 0
    · exact ⟨-((p : ℚ) / (q : ℚ)), by simp only [if_pos h1, if_pos (hodd h1)]⟩
    · exact ⟨(p : ℚ) / (q : ℚ), by simp only [if_neg h1]⟩
  obtain ⟨r, hr⟩ := hex
  exact ⟨r, hr, root_sound c n r hr⟩

/-! ### Newton iteration for the reciprocal root -/

theorem add_pow_two_terms {R : Type} [CommRing R] (p d : R) (n : ℕ) :
    ∃ q : R, (p + d) ^ n = p ^ n + (n : R) * p ^ (n - 1) * d + d ^ 2 * q := by
  induction n with
  | zero => exact ⟨0, by simp⟩
  | succ n ih =>
    obtain ⟨q, hq⟩ := ih
    cases n with
    | zero => exact ⟨0, by simp⟩
    | succ m =>
      refine ⟨((m + 1 : ℕ) : R) * p ^ m + q * (p + d), ?_⟩
      rw [pow_succ, hq]
      simp only [Nat.add_sub_cancel]
      push_cast
      ring

/-- One Newton step `x ← x + (x − t)/n` with `t = x^(n+1)·sn` below degree `step` takes a
reciprocal root that is right below degree `k` to one that is right below `step ≤ 2k`. -/
theorem newton_root_step (n : ℕ) (hn : n ≠ 0) (x sn t : ℚ⟦X⟧) (k step : ℕ)
    (h : CongrX k (x ^ n * sn) 1) (hs : step ≤ 2 * k)
    (ht : CongrX step t (x ^ (n + 1) * sn)) :
    CongrX step ((x + C ℚ (n : ℚ)⁻¹ * (x - t)) ^ n * sn) 1 := by
  have hn0 : (n : ℚ) ≠ 0 := Nat.cast_ne_zero.mpr hn
  set e : ℚ⟦X⟧ := 1 - x ^ n * sn with he
  have hek : (X : ℚ⟦X⟧) ^ k ∣ e := by
    have := h.symm
    unfold CongrX at this
    exact this
  set y : ℚ⟦X⟧ := C ℚ (n : ℚ)⁻¹ * e with hy
  have hny : (n : ℚ⟦X⟧) * y = e := by
    have : (n : ℚ⟦X⟧) = C ℚ (n : ℚ) := by simp
    rw [hy, this, ← mul_assoc, ← map_mul, mul_inv_cancel₀ hn0, map_one, one_mul]
  have h1 : CongrX step (x + C ℚ (n : ℚ)⁻¹ * (x - t)) (x * (1 + y)) := by
    have e1 : x * (1 + y) = x + C ℚ (n : ℚ)⁻¹ * (x - x ^ (n + 1) * sn) := by
      rw [hy, he]; ring
    rw [e1]
    exact (CongrX.refl _ x).add (CongrX.mul_left _ ((CongrX.refl _ x).sub ht))
  have h2 := (h1.pow n).mul_right sn
  refine h2.trans ?_
  obtain ⟨q, hq⟩ := add_pow_two_terms (1 : ℚ⟦X⟧) y n
  have e2 : (x * (1 + y)) ^ n * sn - 1 = e ^ 2 * (-1 + (1 - e) * (C ℚ (n : ℚ)⁻¹) ^ 2 * q) := by
    rw [mul_pow, hq]
    simp only [one_pow, mul_one]
    rw [hny]
    have e3 : x ^ n * sn = 1 - e := by rw [he]; ring
    calc x ^ n * (1 + e + y ^ 2 * q) * sn - 1
        = (x ^ n * sn) * (1 + e + y ^ 2 * q) - 1 := by ring
      _ = (1 - e) * (1 + e + y ^ 2 * q) - 1 := by rw [e3]
      _ = e ^ 2 * (-1 + (1 - e) * (C ℚ (n : ℚ)⁻¹) ^ 2 * q) := by rw [hy]; ring
  unfold CongrX
  rw [e2]
  have h3 : (X : ℚ⟦X⟧) ^ (2 * k) ∣ e ^ 2 := by
    have : (X : ℚ⟦X⟧) ^ (2 * k) = (X ^ k) ^ 2 := by rw [← pow_mul, mul_comm]
    rw [this]
    exact pow_dvd_pow_of_dvd hek 2
  exact Dvd.dvd.mul_right (dvd_trans (pow_dvd_pow X hs) h3) _

theorem schedule_ok_of_chain (k : ℕ) (step : ℕ) (rest : List ℕ) (h0 : step ≤ 2 * k)
    (h : List.Chain' (fun a b => b ≤ 2 * a) (step :: rest)) : schedule_ok k (step :: rest) := by
  induction rest generalizing k step with
  | nil => exact ⟨h0, trivial⟩
  | cons s2 rest ih =>
    rw [List.chain'_cons] at h
    exact ⟨h0, ih step s2 h.1 h.2⟩

theorem schedule_ok_of_valid (steps : List ℕ) (prec : ℕ) (h : valid_schedule steps prec) :
    schedule_ok 1 steps := by
  obtain ⟨⟨first, hf, hf2⟩, hc, _⟩ := h
  cases steps with
  | nil => trivial
  | cons s rest =>
    simp only [List.head?_cons, Option.some.injEq] at hf
    subst hf
    exact schedule_ok_of_chain 1 s rest (by omega) hc

theorem toPS_nthroot_update (sn x : fp_t) (n step : ℕ) :
    toPS (add x (scalar_div (sub x (mul (pow x (n + 1) step) sn step)) (n : ℚ))) =
      toPS x + C ℚ (n : ℚ)⁻¹ * (toPS x - toPS (mul (pow x (n + 1) step) sn step)) := by
  rw [toPS_add, toPS_scalar_div, toPS_sub]

/-- The Newton loop of `series_nthroot` never throws and ends with a reciprocal root that is
right below the last schedule entry. -/
theorem nthroot_loop (n : ℕ) (hn : n ≠ 0) (sn : fp_t) (steps : List ℕ) (x : fp_t) (k : ℕ)
    (hk : CongrX k (toPS x ^ n * toPS sn) 1) (hsched : schedule_ok k steps) :
    ∃ x1, for_steps (nthroot_body sn n) steps x = .ok x1 ∧
      CongrX (steps.getLast?.getD k) (toPS x1 ^ n * toPS sn) 1 := by
  induction steps generalizing x k with
  | nil => exact ⟨x, rfl, by simpa using hk⟩
  | cons step rest ih =>
    obtain ⟨hs, hrest⟩ := hsched
    have hstep : CongrX step
        (toPS (add x (scalar_div (sub x (mul (pow x (n + 1) step) sn step)) (n : ℚ))) ^ n
          * toPS sn) 1 := by
      rw [toPS_nthroot_update]
      apply newton_root_step n hn (toPS x) (toPS sn) _ k step hk hs
      exact (toPS_mullow_congr _ _ step).trans (CongrX.mul_right _ (toPS_pow_congr x (n + 1) step))
    obtain ⟨x1, hx1, hc⟩ := ih _ step hstep hrest
    refine ⟨x1, ?_, ?_⟩
    · simp only [for_steps, nthroot_body]
      exact hx1
    · cases rest with
      | nil => simpa using hc
      | cons s2 r2 => simpa [List.getLast?_cons_cons] using hc

theorem ldegree_of_const_ne_zero (s : fp_t) (h : get_coeff s 0 ≠ 0) : ldegree s = 0 := by
  cases s with
  | nil => simp [get_coeff] at h
  | cons c cs =>
    have hc : c ≠ 0 := by simpa [get_coeff] using h
    simp [ldegree, List.findIdx_cons, hc]

theorem toShort_of_small (z : ℤ) (h0 : -32768 ≤ z) (h1 : z < 32768) : toShort z = z := by
  unfold toShort
  omega

theorem series_invert_ok (s var : fp_t) (prec : ℕ) (h : get_coeff s 0 ≠ 0) :
    series_invert s var prec = .ok (inv_coeffs s prec) := by
  simp [series_invert, inv_series, h]

theorem coeff_zero_ne_zero_of_congr {A B : ℚ⟦X⟧} {n m : ℕ} (hn : 1 ≤ n) (hm : 1 ≤ m)
    (h : CongrX n (A ^ m * B) 1) : coeff ℚ 0 A ≠ 0 := by
  have h0 := (congrX_iff n _ _).mp h 0 (by omega)
  simp only [coeff_zero_eq_constantCoeff, map_mul, map_pow, map_one] at h0
  intro hA
  simp only [coeff_zero_eq_constantCoeff] at hA
  rw [hA, zero_pow (by omega), zero_mul] at h0
  exact zero_ne_one h0

theorem series_nthroot_eq_main (step_list : ℕ → List ℕ) (s var : fp_t) (n : ℤ) (prec : ℕ)
    (h0 : n ≠ 0) (h1 : n ≠ 1) (h2 : n ≠ -1) (hdiv : Int.tmod (toShort (ldegree s)) n = 0) :
    series_nthroot step_list s n var prec =
      nthroot_main step_list s n var prec (toShort (ldegree s)) := by
  unfold series_nthroot
  rw [if_neg h0, if_neg h1, if_neg h2]
  simp only [hdiv, ne_eq, not_true_eq_false, if_false]

theorem nthroot_main_zero_pos (step_list : ℕ → List ℕ) (s var : fp_t) (n prec : ℕ)
    (ctroot : ℚ) (x : fp_t) (hs : get_coeff s 0 ≠ 0)
    (hroot : root (get_coeff s 0) n = .ok ctroot)
    (hloop : for_steps (nthroot_body (scalar_div s (get_coeff s 0)) n) (step_list prec) one
      = .ok x) (hx0 : get_coeff x 0 ≠ 0) :
    nthroot_main step_list s (n : ℤ) var prec 0 = .ok (scalar_mul (inv_coeffs x prec) ctroot) := by
  have hneg : ¬ ((n : ℤ) < 0) := by omega
  unfold nthroot_main
  simp only [ne_eq, not_true_eq_false, if_false, find_cf, if_neg hneg, Int.toNat_ofNat, hroot,
    scalar_div_checked, if_neg hs, hloop, series_invert_ok x var prec hx0]
  simp [hneg]

/-- Correctness of `series_nthroot` for a positive exponent and a series of valuation `0`. -/
theorem series_nthroot_pos_correct (step_list : ℕ → List ℕ) (s var : fp_t) (n prec : ℕ)
    (hn : 2 ≤ n) (hs : get_coeff s 0 ≠ 0) (hroot : ∃ q : ℚ, q ^ n = get_coeff s 0)
    (hprec : 1 ≤ prec) (hsched : valid_schedule (step_list prec) prec) :
    ∃ r, series_nthroot step_list s (n : ℤ) var prec = .ok r ∧
      ∀ k < prec, get_coeff (pow r n prec) k = get_coeff s k := by
  obtain ⟨ctroot, hctroot, hpow⟩ := root_complete (get_coeff s 0) n (by omega) hroot
  have hinit : CongrX 1 (toPS one ^ n * toPS (scalar_div s (get_coeff s 0))) 1 := by
    rw [toPS_one, one_pow, one_mul, congrX_iff]
    intro k hk
    have : k = 0 := by omega
    subst this
    rw [coeff_toPS, get_coeff_scalar_div]
    simp [hs]
  obtain ⟨x, hx, hxc⟩ := nthroot_loop n (by omega) (scalar_div s (get_coeff s 0))
    (step_list prec) one 1 hinit (schedule_ok_of_valid _ _ hsched)
  rw [hsched.2.2] at hxc
  simp only [Option.getD_some] at hxc
  have hx0 : get_coeff x 0 ≠ 0 := by
    have := coeff_zero_ne_zero_of_congr hprec (show 1 ≤ n by omega) hxc
    rwa [coeff_toPS] at this
  refine ⟨scalar_mul (inv_coeffs x prec) ctroot, ?_, ?_⟩
  · have hl : toShort (ldegree s) = 0 := by
      rw [ldegree_of_const_ne_zero s hs]; rfl
    rw [series_nthroot_eq_main step_list s var n prec (by omega) (by omega) (by omega)
      (by rw [hl]; simp), hl]
    exact nthroot_main_zero_pos step_list s var n prec ctroot x hs hctroot hx hx0
  · rw [← congrX_toPS_iff]
    refine (toPS_pow_congr _ n prec).trans ?_
    rw [toPS_scalar_mul, mul_pow, ← map_pow, hpow]
    set I := toPS (inv_coeffs x prec) with hI
    have hxi : CongrX prec (toPS x * I) 1 := toPS_mul_inv_coeffs x prec hx0
    have hsn : toPS (scalar_div s (get_coeff s 0)) = C ℚ (get_coeff s 0)⁻¹ * toPS s :=
      toPS_scalar_div _ _
    rw [hsn] at hxc
    -- I^n ≡ I^n · (x^n · sn) = (x·I)^n · sn ≡ sn
    have h1 : CongrX prec (I ^ n * (toPS x ^ n * (C ℚ (get_coeff s 0)⁻¹ * toPS s))) (I ^ n * 1) :=
      CongrX.mul_left _ hxc
    have h2 : CongrX prec ((toPS x * I) ^ n * (C ℚ (get_coeff s 0)⁻¹ * toPS s))
        (1 ^ n * (C ℚ (get_coeff s 0)⁻¹ * toPS s)) := CongrX.mul_right _ (hxi.pow n)
    have e1 : I ^ n * (toPS x ^ n * (C ℚ (get_coeff s 0)⁻¹ * toPS s))
        = (toPS x * I) ^ n * (C ℚ (get_coeff s 0)⁻¹ * toPS s) := by ring
    rw [e1] at h1
    have h3 : CongrX prec (I ^ n) (C ℚ (get_coeff s 0)⁻¹ * toPS s) := by
      have := h1.symm.trans h2
      simpa using this
    have h4 := CongrX.mul_left (C ℚ (get_coeff s 0)) h3
    have e2 : C ℚ (get_coeff s 0) * (C ℚ (get_coeff s 0)⁻¹ * toPS s) = toPS s := by
      rw [← mul_assoc, ← map_mul, mul_inv_cancel₀ hs, map_one, one_mul]
    rw [e2] at h4
    exact h4

theorem toPS_compose_trunc (c : ℕ → ℚ) (s : fp_t) (N : ℕ) :
    CongrX N (toPS (compose_trunc c s N)) (∑ i in Finset.range N, C ℚ (c i) * toPS s ^ i) := by
  rw [congrX_iff]
  intro k hk
  rw [coeff_toPS]
  unfold compose_trunc
  rw [get_coeff_map_range, if_pos hk, list_sum_range, map_sum]
  apply Finset.sum_congr rfl
  intro i _
  rw [coeff_C_mul, ← toPS_pow_full, coeff_toPS]

theorem CongrX.pow_self_zero {p : ℚ⟦X⟧} (hp : CongrX 1 p 0) (m : ℕ) : CongrX m (p ^ m) 0 := by
  have := CongrX.pow_of_zero hp m
  rwa [one_mul] at this

/-- For `p` without constant term the partial sums of a composition are stable below the index. -/
theorem comp_congr_of_le (c : ℕ → ℚ) (p : ℚ⟦X⟧) (hp : CongrX 1 p 0) (M M1 : ℕ) (h : M ≤ M1) :
    CongrX M (∑ i in Finset.range M, C ℚ (c i) * p ^ i)
      (∑ i in Finset.range M1, C ℚ (c i) * p ^ i) := by
  induction M1 with
  | zero =>
    have : M = 0 := by omega
    subst this
    exact CongrX.refl _ _
  | succ M1 ih =>
    by_cases hM : M = M1 + 1
    · subst hM; exact CongrX.refl _ _
    · have hle : M ≤ M1 := by omega
      rw [Finset.sum_range_succ _ M1]
      have h1 : CongrX M (C ℚ (c M1) * p ^ M1) 0 := by
        have := CongrX.mul_left (C ℚ (c M1)) ((CongrX.pow_self_zero hp M1).mono hle)
        rwa [mul_zero] at this
      have := (ih hle).add h1.symm
      rwa [add_zero] at this

/-- First-order expansion of a composition: `c(p + d) = c(p) + d·c'(p) + d²·Q`. -/
theorem comp_add_expand (c : ℕ → ℚ) (p d : ℚ⟦X⟧) (N : ℕ) :
    ∃ Q : ℚ⟦X⟧, (∑ i in Finset.range N, C ℚ (c i) * (p + d) ^ i) =
      (∑ i in Finset.range N, C ℚ (c i) * p ^ i)
        + d * (∑ i in Finset.range N, C ℚ (c i) * ((i : ℚ⟦X⟧) * p ^ (i - 1)))
        + d ^ 2 * Q := by
  induction N with
  | zero => exact ⟨0, by simp⟩
  | succ N ih =>
    obtain ⟨Q, hQ⟩ := ih
    obtain ⟨q, hq⟩ := add_pow_two_terms p d N
    refine ⟨Q + C ℚ (c N) * q, ?_⟩
    rw [Finset.sum_range_succ, Finset.sum_range_succ, Finset.sum_range_succ, hQ, hq]
    ring

theorem exp_coeff_succ (i : ℕ) : exp_coeff (i + 1) * ((i : ℚ) + 1) = exp_coeff i := by
  unfold exp_coeff
  rw [Nat.factorial_succ]
  push_cast
  have h1 : ((i : ℚ) + 1) ≠ 0 := by positivity
  have h2 : (i.factorial : ℚ) ≠ 0 := by positivity
  field_simp

/-- The derivative of the exponential partial sum is the previous partial sum. -/
theorem exp_deriv_sum (p : ℚ⟦X⟧) (N : ℕ) :
    (∑ i in Finset.range (N + 1), C ℚ (exp_coeff i) * ((i : ℚ⟦X⟧) * p ^ (i - 1)))
      = ∑ i in Finset.range N, C ℚ (exp_coeff i) * p ^ i := by
  induction N with
  | zero => simp
  | succ N ih =>
    rw [Finset.sum_range_succ, ih, Finset.sum_range_succ _ N]
    congr 1
    have : ((N + 1 : ℕ) : ℚ⟦X⟧) = C ℚ ((N : ℚ) + 1) := by simp
    rw [this, ← mul_assoc, ← map_mul, exp_coeff_succ]
    simp

/-- The truncated exponential of `p + d` is `(1 + d)` times that of `p`, below degree `N`, when
`d` vanishes below a degree `k` with `N ≤ 2k`. -/
theorem exp_add_congr (p d : ℚ⟦X⟧) (k N : ℕ) (hN : N ≤ 2 * k)
    (hp : CongrX 1 p 0) (hd : CongrX k d 0) :
    CongrX N (∑ i in Finset.range N, C ℚ (exp_coeff i) * (p + d) ^ i)
      ((∑ i in Finset.range N, C ℚ (exp_coeff i) * p ^ i) * (1 + d)) := by
  cases N with
  | zero => exact CongrX.zero_left _ _
  | succ M =>
    obtain ⟨Q, hQ⟩ := comp_add_expand exp_coeff p d (M + 1)
    rw [hQ, exp_deriv_sum]
    set EM := ∑ i in Finset.range M, C ℚ (exp_coeff i) * p ^ i with hEM
    set E := ∑ i in Finset.range (M + 1), C ℚ (exp_coeff i) * p ^ i with hE
    have hd2 : CongrX (M + 1) (d ^ 2 * Q) 0 := by
      have h := (CongrX.pow_of_zero hd 2).mono (show M + 1 ≤ k * 2 by omega)
      have := CongrX.mul_right Q h
      rwa [zero_mul] at this
    have h1 : CongrX (M + 1) (d * EM) (d * E) := by
      have hdiff : CongrX M (EM - E) 0 := by
        have := (comp_congr_of_le exp_coeff p hp M (M + 1) (by omega)).sub
          (CongrX.refl M E)
        rwa [sub_self] at this
      have hprod := (CongrX.mul_zero hd hdiff).mono (show M + 1 ≤ k + M by omega)
      unfold CongrX at hprod ⊢
      rw [sub_zero] at hprod
      have e : d * EM - d * E = d * (EM - E) := by ring
      rw [e]; exact hprod
    have := ((CongrX.refl (M + 1) E).add h1).add hd2
    refine this.trans (CongrX.of_eq ?_)
    ring

/-- One Newton step of the Lambert W iteration, on power series. -/
theorem lambertw_step_ps (p s e I m : ℚ⟦X⟧) (k N : ℕ) (hk : 1 ≤ k) (hN1 : 1 ≤ N)
    (hN : N ≤ 2 * k) (hp : CongrX 1 p 0)
    (hinv : CongrX (min k N) (p * ∑ i in Finset.range N, C ℚ (exp_coeff i) * p ^ i) s)
    (he : CongrX N e (∑ i in Finset.range N, C ℚ (exp_coeff i) * p ^ i))
    (hI : CongrX N (e * (p + 1) * I) 1)
    (hm : CongrX N m ((e * p - s) * I)) :
    CongrX N ((p - m) * ∑ i in Finset.range N, C ℚ (exp_coeff i) * (p - m) ^ i) s ∧
      CongrX 1 (p - m) 0 := by
  set E := ∑ i in Finset.range N, C ℚ (exp_coeff i) * p ^ i with hE
  set g := E * p - s with hg
  have hk1 : 1 ≤ min k N := le_min hk hN1
  have hkN : min k N ≤ N := min_le_right _ _
  have h2k : N ≤ 2 * min k N := by
    rcases le_total k N with h | h
    · rw [min_eq_left h]; exact hN
    · rw [min_eq_right h]; omega
  have hg0 : CongrX (min k N) g 0 := by
    have := hinv.sub (CongrX.refl _ s)
    rw [sub_self] at this
    have e1 : g = p * E - s := by rw [hg]; ring
    rw [e1]; exact this
  have hm1 : CongrX N m (g * I) :=
    hm.trans (CongrX.mul_right I (((he.mul_right p)).sub (CongrX.refl N s)))
  have hm0 : CongrX (min k N) m 0 := by
    have := (hm1.mono hkN).trans (CongrX.mul_right I hg0)
    rwa [zero_mul] at this
  have hd0 : CongrX (min k N) (-m) 0 := by
    have := (CongrX.refl _ (0 : ℚ⟦X⟧)).sub hm0
    simpa using this
  have hexp := exp_add_congr p (-m) (min k N) N h2k hp hd0
  have hsub : p - m = p + -m := by ring
  constructor
  · rw [hsub]
    refine (CongrX.mul_left (p + -m) hexp).trans ?_
    have hm2 : CongrX N (m ^ 2 * E) 0 := by
      have h := (CongrX.pow_of_zero hm0 2).mono (show N ≤ min k N * 2 by omega)
      have := CongrX.mul_right E h
      rwa [zero_mul] at this
    have hmE : CongrX N (m * ((p + 1) * E)) g := by
      have h1 : CongrX N (m * ((p + 1) * E)) (g * I * ((p + 1) * e)) :=
        CongrX.mul hm1 (CongrX.mul_left _ he.symm)
      have h2 : CongrX N (g * (e * (p + 1) * I)) (g * 1) := CongrX.mul_left g hI
      have e2 : g * I * ((p + 1) * e) = g * (e * (p + 1) * I) := by ring
      rw [e2] at h1
      have := h1.trans h2
      rwa [mul_one] at this
    have e3 : (p + -m) * (E * (1 + -m)) = p * E - m * ((p + 1) * E) + m ^ 2 * E := by ring
    rw [e3]
    have := ((CongrX.refl N (p * E)).sub hmE).add hm2
    refine this.trans (CongrX.of_eq ?_)
    rw [hg]; ring
  · have := hp.sub (hm0.mono hk1)
    simpa using this

theorem schedule_pos_of_chain (steps : List ℕ) (prec : ℕ) (hprec : 1 ≤ prec)
    (hc : steps.Chain' (fun a b => b ≤ 2 * a)) (hl : steps.getLast? = some prec) :
    ∀ x ∈ steps, 1 ≤ x := by
  induction steps with
  | nil => intro x hx; cases hx
  | cons a rest ih =>
    cases rest with
    | nil =>
      simp only [List.getLast?_singleton, Option.some.injEq] at hl
      intro x hx
      simp only [List.mem_singleton] at hx
      omega
    | cons b r2 =>
      rw [List.chain'_cons] at hc
      rw [List.getLast?_cons_cons] at hl
      have hrest := ih hc.2 hl
      intro x hx
      rcases List.mem_cons.mp hx with h | h
      · have hb := hrest b (List.mem_cons_self _ _)
        have := hc.1
        omega
      · exact hrest x h

theorem schedule_pos_of_valid (steps : List ℕ) (prec : ℕ) (hprec : 1 ≤ prec)
    (h : valid_schedule steps prec) : ∀ x ∈ steps, 1 ≤ x :=
  schedule_pos_of_chain steps prec hprec h.2.1 h.2.2

theorem coeff_zero_exp_sum (p : ℚ⟦X⟧) (hp : CongrX 1 p 0) (N : ℕ) (hN : 1 ≤ N) :
    coeff ℚ 0 (∑ i in Finset.range N, C ℚ (exp_coeff i) * p ^ i) = 1 := by
  have h := comp_congr_of_le exp_coeff p hp 1 N hN
  have h0 := (congrX_iff 1 _ _).mp h 0 (by norm_num)
  rw [← h0]
  simp [exp_coeff]

theorem lambertw_body_ok (s var : fp_t) (k step : ℕ) (p : fp_t) (hk : 1 ≤ k)
    (hstep : 1 ≤ step) (hs : step ≤ 2 * k) (hinv : lambertw_inv s k p) :
    ∃ p1, lambertw_body s var step p = .ok p1 ∧ lambertw_inv s step p1 := by
  obtain ⟨hp0, hpk⟩ := hinv
  have hp0c : get_coeff p 0 = 0 := by
    have := (congrX_one_zero_iff _).mp hp0
    rwa [coeff_toPS] at this
  set e := compose_trunc exp_coeff p step with he
  have hexp : series_exp p var step = .ok e := by
    simp [series_exp, exp_series, hp0c, he]
  have heE := toPS_compose_trunc exp_coeff p step
  rw [← he] at heE
  set d := mul e (add p one) step with hd
  have hdc : CongrX step (toPS d) (toPS e * (toPS p + 1)) := by
    have := toPS_mullow_congr e (add p one) step
    rwa [toPS_add, toPS_one] at this
  have hd0 : get_coeff d 0 ≠ 0 := by
    have h0 := (congrX_iff step _ _).mp hdc 0 (by omega)
    rw [coeff_toPS] at h0
    rw [h0]
    have h1 := (congrX_iff step _ _).mp heE 0 (by omega)
    have h2 := coeff_zero_exp_sum (toPS p) hp0 step hstep
    have h3 : coeff ℚ 0 (toPS p) = 0 := (congrX_one_zero_iff _).mp hp0
    simp only [coeff_zero_eq_constantCoeff, map_mul, map_add, map_one] at h0 h1 h2 h3 ⊢
    rw [h1, h2, h3]
    norm_num
  have hinvd : series_invert d var step = .ok (inv_coeffs d step) := series_invert_ok d var step hd0
  set I := inv_coeffs d step with hI
  refine ⟨sub p (mul (sub (mul e p step) s) I step), ?_, ?_⟩
  · unfold lambertw_body
    rw [hexp]
    simp only
    rw [← hd, hinvd]
  · have hIc : CongrX step (toPS e * (toPS p + 1) * toPS I) 1 :=
      ((CongrX.mul_right (toPS I) hdc).symm).trans (toPS_mul_inv_coeffs d step hd0)
    have hmc : CongrX step (toPS (mul (sub (mul e p step) s) I step))
        ((toPS e * toPS p - toPS s) * toPS I) := by
      refine (toPS_mullow_congr _ _ step).trans (CongrX.mul_right _ ?_)
      rw [toPS_sub]
      exact (toPS_mullow_congr e p step).sub (CongrX.refl _ _)
    have hinv_min : CongrX (min k step)
        (toPS p * ∑ i in Finset.range step, C ℚ (exp_coeff i) * toPS p ^ i) (toPS s) := by
      rcases le_total k step with h | h
      · rw [min_eq_left h]
        exact (CongrX.mul_left _ (comp_congr_of_le exp_coeff (toPS p) hp0 k step h)).symm.trans hpk
      · rw [min_eq_right h]
        exact (CongrX.mul_left _ (comp_congr_of_le exp_coeff (toPS p) hp0 step k h)).trans
          (hpk.mono h)
    have := lambertw_step_ps (toPS p) (toPS s) (toPS e) (toPS I)
      (toPS (mul (sub (mul e p step) s) I step)) k step hk hstep hs hp0 hinv_min heE hIc hmc
    unfold lambertw_inv
    rw [toPS_sub]
    exact ⟨this.2, this.1⟩

theorem lambertw_loop (s var : fp_t) (steps : List ℕ) (p : fp_t) (k : ℕ) (hk : 1 ≤ k)
    (hinv : lambertw_inv s k p) (hsched : schedule_ok k steps) (hpos : ∀ x ∈ steps, 1 ≤ x) :
    ∃ p1, for_steps (lambertw_body s var) steps p = .ok p1 ∧
      lambertw_inv s (steps.getLast?.getD k) p1 := by
  induction steps generalizing p k with
  | nil => exact ⟨p, rfl, by simpa using hinv⟩
  | cons step rest ih =>
    obtain ⟨hs, hrest⟩ := hsched
    have hstep : 1 ≤ step := hpos step (List.mem_cons_self _ _)
    obtain ⟨p1, hp1, hinv1⟩ := lambertw_body_ok s var k step p hk hstep hs hinv
    obtain ⟨p2, hp2, hinv2⟩ := ih p1 step hstep hinv1 hrest
      (fun x hx => hpos x (List.mem_cons_of_mem _ hx))
    refine ⟨p2, ?_, ?_⟩
    · simp only [for_steps, hp1]
      exact hp2
    · cases rest with
      | nil => simpa using hinv2
      | cons s2 r2 => simpa [List.getLast?_cons_cons] using hinv2

theorem for_range_succ_end {σ : Type} (body : ℕ → σ → Except SeriesError σ) (lo count : ℕ)
    (st : σ) :
    for_range body lo (count + 1) st =
      match for_range body lo count st with
      | .ok st1 => body (lo + count) st1
      | .error e => .error e := by
  induction count generalizing lo st with
  | zero =>
    simp only [for_range, Nat.add_zero]
    cases body lo st <;> rfl
  | succ count ih =>
    rw [for_range]
    cases h : body lo st with
    | error e => simp only [for_range, h]
    | ok st1 =>
      simp only
      rw [ih (lo + 1) st1]
      conv_rhs => rw [for_range, h]
      simp only
      have : lo + 1 + count = lo + (count + 1) := by omega
      rw [this]

theorem trig_body_ok (j : ℤ) (ssquare : fp_t) (prec i : ℕ) (st : TrigState)
    (hj : j ≠ 0) (hj1 : i ≠ 0 → 1 - j ≠ 0) :
    trig_body j ssquare prec i st =
      .ok { res_p := add st.res_p (scalar_mul st.monom (prod_step j i st.prod))
            monom := mullow st.monom ssquare prec
            prod := prod_step j i st.prod } := by
  unfold trig_body prod_step rat_div_int
  by_cases hi : i = 0
  · subst hi
    simp [hj]
  · have := hj1 hi
    simp [hi, hj, this]

/-- The loop of `series_sin` / `series_cos` as a sum, while no divisor is zero. -/
theorem trig_loop (jf : ℕ → ℤ) (ssquare : fp_t) (prec : ℕ) (m0 res0 : fp_t) (lo count : ℕ)
    (hnz : ∀ t < count, jf (lo + t) ≠ 0 ∧ (lo + t ≠ 0 → 1 - jf (lo + t) ≠ 0)) :
    ∃ R, for_range (fun i st => trig_body (jf i) ssquare prec i st) lo count
        { res_p := res0, monom := m0, prod := 1 } =
          .ok { res_p := R, monom := monom_iter ssquare prec m0 count,
                prod := prod_iter jf lo count } ∧
      ∀ k, get_coeff R k = get_coeff res0 k +
        ∑ t in Finset.range count,
          prod_iter jf lo (t + 1) * get_coeff (monom_iter ssquare prec m0 t) k := by
  induction count with
  | zero => exact ⟨res0, rfl, by simp⟩
  | succ count ih =>
    obtain ⟨R, hR, hk⟩ := ih (fun t ht => hnz t (by omega))
    obtain ⟨h1, h2⟩ := hnz count (by omega)
    refine ⟨add R (scalar_mul (monom_iter ssquare prec m0 count) (prod_iter jf lo (count + 1))),
      ?_, ?_⟩
    · rw [for_range_succ_end, hR]
      simp only
      rw [trig_body_ok _ _ _ _ _ h1 h2]
      rfl
    · intro k
      rw [get_coeff_add, get_coeff_scalar_mul, hk k, Finset.sum_range_succ]
      ring

/-! ### The running coefficient is the Taylor coefficient while `j` does not wrap -/

theorem toShort_sin_j (i : ℕ) (h : i ≤ 16383) : toShort (2 * (i : ℤ) + 1) = 2 * (i : ℤ) + 1 :=
  toShort_of_small _ (by omega) (by omega)

theorem toShort_cos_j (i : ℕ) (h : i ≤ 16383) : toShort (2 * (i : ℤ)) = 2 * (i : ℤ) :=
  toShort_of_small _ (by omega) (by omega)

theorem sin_coeff_odd (t : ℕ) : sin_coeff (2 * t + 1) = (-1) ^ t / ((2 * t + 1).factorial : ℚ) := by
  unfold sin_coeff
  rw [if_pos (by omega)]
  congr 2
  omega

theorem cos_coeff_even (t : ℕ) : cos_coeff (2 * t) = (-1) ^ t / ((2 * t).factorial : ℚ) := by
  unfold cos_coeff
  rw [if_pos (by omega)]
  congr 2
  omega

theorem sin_coeff_step (t : ℕ) :
    sin_coeff (2 * (t + 1) + 1) =
      sin_coeff (2 * t + 1) / (((1 - (2 * ((t + 1 : ℕ) : ℤ) + 1) : ℤ)) : ℚ)
        / ((2 * ((t + 1 : ℕ) : ℤ) + 1 : ℤ) : ℚ) := by
  rw [sin_coeff_odd, sin_coeff_odd]
  have e : 2 * (t + 1) + 1 = (2 * t + 1) + 1 + 1 := by ring
  rw [e, Nat.factorial_succ (2 * t + 1 + 1), Nat.factorial_succ (2 * t + 1)]
  have hf : ((2 * t + 1).factorial : ℚ) ≠ 0 := by positivity
  push_cast
  have h1 : (1 - (2 * ((t : ℚ) + 1) + 1)) ≠ 0 := by
    have : (0 : ℚ) ≤ t := Nat.cast_nonneg t
    linarith
  have h2 : (2 * ((t : ℚ) + 1) + 1) ≠ 0 := by positivity
  have h3 : (2 * (t : ℚ) + 1 + 1 + 1) ≠ 0 := by positivity
  have h4 : (2 * (t : ℚ) + 1 + 1) ≠ 0 := by positivity
  field_simp
  ring

theorem cos_coeff_step (t : ℕ) :
    cos_coeff (2 * (t + 1)) =
      cos_coeff (2 * t) / (((1 - (2 * ((t + 1 : ℕ) : ℤ)) : ℤ)) : ℚ)
        / ((2 * ((t + 1 : ℕ) : ℤ) : ℤ) : ℚ) := by
  rw [cos_coeff_even, cos_coeff_even]
  have e : 2 * (t + 1) = (2 * t) + 1 + 1 := by ring
  rw [e, Nat.factorial_succ (2 * t + 1), Nat.factorial_succ (2 * t)]
  have hf : ((2 * t).factorial : ℚ) ≠ 0 := by positivity
  push_cast
  have h1 : (1 - (2 * ((t : ℚ) + 1))) ≠ 0 := by
    have : (0 : ℚ) ≤ t := Nat.cast_nonneg t
    linarith
  have h2 : (2 * ((t : ℚ) + 1)) ≠ 0 := by positivity
  have h3 : (2 * (t : ℚ) + 1 + 1) ≠ 0 := by positivity
  have h4 : (2 * (t : ℚ) + 1) ≠ 0 := by positivity
  field_simp
  ring

theorem sin_prod_iter (t : ℕ) (h : t ≤ 16383) :
    prod_iter (fun i => toShort (2 * (i : ℤ) + 1)) 0 (t + 1) = sin_coeff (2 * t + 1) := by
  induction t with
  | zero =>
    simp [prod_iter, prod_step, sin_coeff, toShort]
  | succ t ih =>
    have ih1 := ih (by omega)
    rw [prod_iter, ih1]
    simp only [Nat.zero_add]
    rw [toShort_sin_j (t + 1) h, sin_coeff_step]
    unfold prod_step
    rw [if_pos (Nat.succ_ne_zero t)]

theorem cos_prod_iter (t : ℕ) (h : t ≤ 16383) :
    prod_iter (fun i => toShort (2 * (i : ℤ))) 1 t = cos_coeff (2 * t) := by
  induction t with
  | zero =>
    simp [prod_iter, cos_coeff]
  | succ t ih =>
    have ih1 := ih (by omega)
    rw [prod_iter, ih1]
    have e0 : 1 + t = t + 1 := by omega
    rw [e0, toShort_cos_j (t + 1) h, cos_coeff_step]
    unfold prod_step
    rw [if_pos (Nat.succ_ne_zero t)]

theorem get_coeff_mullow_of_le (a b : fp_t) (n k : ℕ) (h : n ≤ k) :
    get_coeff (mullow a b n) k = 0 := by
  rw [get_coeff_mullow, if_neg (by omega)]

theorem toPS_sin_monom (s : fp_t) (prec t : ℕ) :
    CongrX prec (toPS (monom_iter (mullow s s prec) prec s t)) (toPS s ^ (2 * t + 1)) := by
  induction t with
  | zero => simp only [monom_iter, Nat.mul_zero, Nat.zero_add, pow_one]; exact CongrX.refl _ _
  | succ t ih =>
    rw [monom_iter]
    refine (toPS_mullow_congr _ _ prec).trans ?_
    have e : toPS s ^ (2 * (t + 1) + 1) = toPS s ^ (2 * t + 1) * (toPS s * toPS s) := by ring
    rw [e]
    exact CongrX.mul ih (toPS_mullow_congr s s prec)

theorem toPS_cos_monom (s : fp_t) (prec t : ℕ) :
    CongrX prec (toPS (monom_iter (mullow s s prec) prec (mullow s s prec) t))
      (toPS s ^ (2 * (t + 1))) := by
  induction t with
  | zero =>
    simp only [monom_iter, Nat.zero_add, Nat.mul_one]
    rw [pow_two]
    exact toPS_mullow_congr s s prec
  | succ t ih =>
    rw [monom_iter]
    refine (toPS_mullow_congr _ _ prec).trans ?_
    have e : toPS s ^ (2 * (t + 1 + 1)) = toPS s ^ (2 * (t + 1)) * (toPS s * toPS s) := by ring
    rw [e]
    exact CongrX.mul ih (toPS_mullow_congr s s prec)

theorem sum_odd_terms (h : ℕ → ℚ) (n : ℕ) :
    (∑ i in Finset.range n, if i % 2 = 1 then h (i / 2) else 0)
      = ∑ t in Finset.range (n / 2), h t := by
  induction n with
  | zero => simp
  | succ n ih =>
    rw [Finset.sum_range_succ, ih]
    by_cases hn : n % 2 = 1
    · rw [if_pos hn]
      have : (n + 1) / 2 = n / 2 + 1 := by omega
      rw [this, Finset.sum_range_succ]
    · rw [if_neg hn]
      have : (n + 1) / 2 = n / 2 := by omega
      rw [this, add_zero]

theorem sum_even_terms (h : ℕ → ℚ) (n : ℕ) :
    (∑ i in Finset.range n, if i % 2 = 0 then h (i / 2) else 0)
      = ∑ t in Finset.range ((n + 1) / 2), h t := by
  induction n with
  | zero => simp
  | succ n ih =>
    rw [Finset.sum_range_succ, ih]
    by_cases hn : n % 2 = 0
    · rw [if_pos hn]
      have : (n + 1 + 1) / 2 = (n + 1) / 2 + 1 := by omega
      have h2 : (n + 1) / 2 = n / 2 := by omega
      rw [this, Finset.sum_range_succ, h2]
    · rw [if_neg hn]
      have : (n + 1 + 1) / 2 = (n + 1) / 2 := by omega
      rw [this, add_zero]

theorem get_coeff_compose_trunc (c : ℕ → ℚ) (s : fp_t) (n k : ℕ) :
    get_coeff (compose_trunc c s n) k =
      if k < n then ∑ i in Finset.range n, c i * coeff ℚ k (toPS s ^ i) else 0 := by
  unfold compose_trunc
  rw [get_coeff_map_range, list_sum_range]
  split_ifs
  · apply Finset.sum_congr rfl
    intro i _
    rw [← toPS_pow_full, coeff_toPS]
  · rfl

theorem sin_compose_sum (s : fp_t) (n k : ℕ) :
    (∑ i in Finset.range n, sin_coeff i * coeff ℚ k (toPS s ^ i)) =
      ∑ t in Finset.range (n / 2), sin_coeff (2 * t + 1) * coeff ℚ k (toPS s ^ (2 * t + 1)) := by
  rw [← sum_odd_terms]
  apply Finset.sum_congr rfl
  intro i _
  by_cases hi : i % 2 = 1
  · rw [if_pos hi]
    have : 2 * (i / 2) + 1 = i := by omega
    rw [this]
  · rw [if_neg hi]
    unfold sin_coeff
    rw [if_neg hi, zero_mul]

theorem cos_compose_sum (s : fp_t) (n k : ℕ) :
    (∑ i in Finset.range n, cos_coeff i * coeff ℚ k (toPS s ^ i)) =
      ∑ t in Finset.range ((n + 1) / 2), cos_coeff (2 * t) * coeff ℚ k (toPS s ^ (2 * t)) := by
  rw [← sum_even_terms]
  apply Finset.sum_congr rfl
  intro i _
  by_cases hi : i % 2 = 0
  · rw [if_pos hi]
    have : 2 * (i / 2) = i := by omega
    rw [this]
  · rw [if_neg hi]
    unfold cos_coeff
    rw [if_neg hi, zero_mul]

theorem sin_body_eq (ssquare : fp_t) (prec : ℕ) :
    sin_body ssquare prec =
      fun i st => trig_body ((fun i : ℕ => toShort (2 * (i : ℤ) + 1)) i) ssquare prec i st := rfl

theorem cos_body_eq (ssquare : fp_t) (prec : ℕ) :
    cos_body ssquare prec =
      fun i st => trig_body ((fun i : ℕ => toShort (2 * (i : ℤ))) i) ssquare prec i st := rfl

/-- The closed-form path of `series_sin`, while the 16-bit `j` does not wrap. -/
theorem series_sin_closed_form (s var : fp_t) (prec : ℕ) (hs : get_coeff s 0 = 0)
    (hdeg : degree s ≤ 8) (hprec : prec ≤ 32769) :
    ∃ r, series_sin s var prec = .ok r ∧
      (∀ k < prec, get_coeff r k = get_coeff (compose_trunc sin_coeff s prec) k) ∧
      (∀ k, prec ≤ k → get_coeff r k = if 2 ≤ prec then get_coeff s k else 0) := by
  have hnz : ∀ t < prec / 2, (fun i : ℕ => toShort (2 * (i : ℤ) + 1)) (0 + t) ≠ 0 ∧
      (0 + t ≠ 0 → 1 - (fun i : ℕ => toShort (2 * (i : ℤ) + 1)) (0 + t) ≠ 0) := by
    intro t ht
    simp only [Nat.zero_add]
    rw [toShort_sin_j t (by omega)]
    constructor <;> omega
  obtain ⟨R, hR, hk⟩ := trig_loop (fun i : ℕ => toShort (2 * (i : ℤ) + 1)) (mullow s s prec)
    prec s zero 0 (prec / 2) hnz
  refine ⟨R, ?_, ?_, ?_⟩
  · unfold series_sin
    rw [if_neg (by simpa using hs), if_neg (by omega)]
    simp only
    rw [sin_body_eq, hR]
  · intro k hkp
    rw [hk k, get_coeff_zero, zero_add, get_coeff_compose_trunc, if_pos hkp, sin_compose_sum]
    apply Finset.sum_congr rfl
    intro t ht
    rw [Finset.mem_range] at ht
    rw [sin_prod_iter t (by omega)]
    have := (congrX_iff prec _ _).mp (toPS_sin_monom s prec t) k hkp
    rw [coeff_toPS] at this
    rw [this]
  · intro k hkp
    rw [hk k, get_coeff_zero, zero_add]
    by_cases h2 : 2 ≤ prec
    · rw [if_pos h2]
      have hpos : prec / 2 = (prec / 2 - 1) + 1 := by omega
      rw [hpos, Finset.sum_range_succ']
      have hz : ∀ t ∈ Finset.range (prec / 2 - 1),
          prod_iter (fun i : ℕ => toShort (2 * (i : ℤ) + 1)) 0 (t + 1 + 1) *
            get_coeff (monom_iter (mullow s s prec) prec s (t + 1)) k = 0 := by
        intro t _
        rw [monom_iter, get_coeff_mullow_of_le _ _ _ _ hkp, mul_zero]
      rw [Finset.sum_eq_zero hz, zero_add, sin_prod_iter 0 (by omega)]
      simp [monom_iter, sin_coeff]
    · rw [if_neg h2]
      have : prec / 2 = 0 := by omega
      rw [this]
      simp

/-- The closed-form path of `series_cos`, while the 16-bit `j` does not wrap. -/
theorem series_cos_closed_form (s var : fp_t) (prec : ℕ) (hs : get_coeff s 0 = 0)
    (hdeg : degree s ≤ 8) (hprec : prec ≤ 32767) :
    ∃ r, series_cos s var prec = .ok r ∧
      (∀ k < prec, get_coeff r k = get_coeff (compose_trunc cos_coeff s prec) k) ∧
      (∀ k, prec ≤ k → get_coeff r k = if k = 0 then 1 else 0) := by
  have hnz : ∀ t < prec / 2, (fun i : ℕ => toShort (2 * (i : ℤ))) (1 + t) ≠ 0 ∧
      (1 + t ≠ 0 → 1 - (fun i : ℕ => toShort (2 * (i : ℤ))) (1 + t) ≠ 0) := by
    intro t ht
    simp only
    rw [toShort_cos_j (1 + t) (by omega)]
    constructor
    · omega
    · intro _; omega
  obtain ⟨R, hR, hk⟩ := trig_loop (fun i : ℕ => toShort (2 * (i : ℤ))) (mullow s s prec)
    prec (mullow s s prec) one 1 (prec / 2) hnz
  have hS0 : CongrX 1 (toPS s) 0 := by
    rw [congrX_one_zero_iff, coeff_toPS]; exact hs
  refine ⟨R, ?_, ?_, ?_⟩
  · unfold series_cos
    rw [if_neg (by simpa using hs), if_neg (by omega)]
    simp only
    rw [cos_body_eq, hR]
  · intro k hkp
    rw [hk k, get_coeff_compose_trunc, if_pos hkp]
    -- extend the composition sum by the vanishing term of index `prec`
    have hlast : cos_coeff prec * coeff ℚ k (toPS s ^ prec) = 0 := by
      have h0 := (congrX_iff prec _ _).mp (CongrX.pow_self_zero hS0 prec) k hkp
      rw [h0]; simp
    have hext : (∑ i in Finset.range prec, cos_coeff i * coeff ℚ k (toPS s ^ i))
        = ∑ i in Finset.range (prec + 1), cos_coeff i * coeff ℚ k (toPS s ^ i) := by
      rw [Finset.sum_range_succ, hlast, add_zero]
    rw [hext, cos_compose_sum]
    have hidx : (prec + 1 + 1) / 2 = prec / 2 + 1 := by omega
    rw [hidx, Finset.sum_range_succ']
    have h0 : cos_coeff (2 * 0) * coeff ℚ k (toPS s ^ (2 * 0)) = get_coeff one k := by
      simp [cos_coeff, get_coeff_one, PowerSeries.coeff_one]
    rw [h0, add_comm]
    congr 1
    apply Finset.sum_congr rfl
    intro t ht
    rw [Finset.mem_range] at ht
    rw [cos_prod_iter (t + 1) (by omega)]
    have := (congrX_iff prec _ _).mp (toPS_cos_monom s prec t) k hkp
    rw [coeff_toPS] at this
    rw [this]
  · intro k hkp
    rw [hk k, get_coeff_one]
    have hz : ∀ t ∈ Finset.range (prec / 2),
        prod_iter (fun i : ℕ => toShort (2 * (i : ℤ))) 1 (t + 1) *
          get_coeff (monom_iter (mullow s s prec) prec (mullow s s prec) t) k = 0 := by
      intro t _
      cases t with
      | zero => rw [monom_iter, get_coeff_mullow_of_le _ _ _ _ hkp, mul_zero]
      | succ t => rw [monom_iter, get_coeff_mullow_of_le _ _ _ _ hkp, mul_zero]
    rw [Finset.sum_eq_zero hz, add_zero]

/-! ### Valuation -/

theorem get_coeff_eq_getElem (s : fp_t) (k : ℕ) (h : k < s.length) : get_coeff s k = s[k] := by
  unfold get_coeff
  rw [List.getD_eq_getElem _ _ h]

theorem lt_length_of_get_coeff_ne_zero (s : fp_t) (k : ℕ) (h : get_coeff s k ≠ 0) :
    k < s.length := by
  by_contra hk
  exact h (get_coeff_of_length_le s k (not_lt.mp hk))

/-- The function `ldegree` returns the valuation of a nonzero polynomial. -/
theorem ldegree_eq (s : fp_t) (v : ℕ) (hv : get_coeff s v ≠ 0)
    (hlow : ∀ i < v, get_coeff s i = 0) : ldegree s = v := by
  have hlen := lt_length_of_get_coeff_ne_zero s v hv
  have hne : s[v] ≠ 0 := by rwa [← get_coeff_eq_getElem s v hlen]
  unfold ldegree
  have hall : s.all (fun c => decide (c = 0)) = false := by
    rw [Bool.eq_false_iff]
    intro h
    rw [List.all_eq_true] at h
    have := h s[v] (List.getElem_mem hlen)
    simp at this
    exact hne this
  rw [hall]
  simp only [Bool.false_eq_true, if_false]
  rw [List.findIdx_eq hlen]
  refine ⟨by simpa using hne, ?_⟩
  intro j hj
  have := hlow j hj
  rw [get_coeff_eq_getElem s j (by omega)] at this
  simp [this]

theorem get_coeff_drop (s : fp_t) (v k : ℕ) : get_coeff (s.drop v) k = get_coeff s (v + k) := by
  unfold get_coeff
  simp [List.getElem?_drop]

theorem get_coeff_replicate_append (v : ℕ) (l : fp_t) (k : ℕ) :
    get_coeff (List.replicate v 0 ++ l) k = if k < v then 0 else get_coeff l (k - v) := by
  unfold get_coeff
  split_ifs with h
  · rw [List.getD_append _ _ _ _ (by simpa using h)]
    simp [List.getElem?_replicate, h]
  · rw [List.getD_append_right _ _ _ _ (by simpa using h)]
    simp

/-! ### Error kinds -/

theorem root_error (c : ℚ) (n : ℕ) (e : SeriesError) (h : root c n = .error e) :
    e = .no_exact_root := by
  unfold root at h
  split at h
  · split_ifs at h <;> cases h <;> rfl
  · cases h; rfl

theorem series_invert_error (s var : fp_t) (prec : ℕ) (e : SeriesError)
    (h : series_invert s var prec = .error e) : e = .laurent := by
  unfold series_invert at h
  split_ifs at h with h1
  · unfold inv_series at h
    rw [if_neg h1] at h
    cases h
  · cases h; rfl

theorem for_steps_error {σ : Type} (body : ℕ → σ → Except SeriesError σ) (steps : List ℕ)
    (st : σ) (e : SeriesError) (h : for_steps body steps st = .error e) :
    ∃ step st1, body step st1 = .error e := by
  induction steps generalizing st with
  | nil => cases h
  | cons step rest ih =>
    rw [for_steps] at h
    cases hb : body step st with
    | error e1 =>
      rw [hb] at h
      cases h
      exact ⟨step, st, hb⟩
    | ok st1 =>
      rw [hb] at h
      exact ih st1 h

theorem lambertw_body_error (s var : fp_t) (step : ℕ) (p : fp_t) (e : SeriesError)
    (h : lambertw_body s var step p = .error e) : e = .flint_domain ∨ e = .laurent := by
  unfold lambertw_body at h
  cases he : series_exp p var step with
  | error e1 =>
    rw [he] at h
    cases h
    left
    unfold series_exp exp_series at he
    split_ifs at he
    cases he; rfl
  | ok ex =>
    rw [he] at h
    simp only at h
    cases hi : series_invert (mul ex (add p one) step) var step with
    | error e1 =>
      rw [hi] at h
      cases h
      right
      exact series_invert_error _ _ _ _ hi
    | ok p3 =>
      rw [hi] at h
      cases h

theorem scalar_div_checked_error (a : fp_t) (c : ℚ) (e : SeriesError)
    (h : scalar_div_checked a c = .error e) : e = .flint_domain := by
  unfold scalar_div_checked at h
  split_ifs at h
  cases h; rfl

theorem nthroot_loop_error (sn : fp_t) (m : ℕ) (steps : List ℕ) (x : fp_t) (e : SeriesError) :
    for_steps (nthroot_body sn m) steps x ≠ .error e := by
  intro h
  obtain ⟨step, st1, hb⟩ := for_steps_error _ _ _ _ h
  unfold nthroot_body at hb
  cases hb

/-- After the Puiseux check, `series_nthroot` raises no Puiseux error. -/
theorem nthroot_main_ne_puiseux (step_list : ℕ → List ℕ) (s : fp_t) (n : ℤ) (var : fp_t)
    (prec : ℕ) (ldeg : ℤ) : nthroot_main step_list s n var prec ldeg ≠ .error .puiseux := by
  intro h
  unfold nthroot_main at h
  simp only at h
  generalize (if ldeg ≠ 0 then mul_pow_var s var (-ldeg) prec else s) = ss at h
  generalize hr : root (find_cf ss var 0) (if n < 0 then -n else n).toNat = rr at h
  cases rr with
  | error e =>
    simp only [Except.error.injEq] at h
    have := root_error _ _ _ hr
    rw [h] at this
    cases this
  | ok ctroot =>
    simp only at h
    generalize hd : scalar_div_checked ss (find_cf ss var 0) = dd at h
    cases dd with
    | error e =>
      simp only [Except.error.injEq] at h
      have := scalar_div_checked_error _ _ _ hd
      rw [h] at this
      cases this
    | ok sn =>
      simp only at h
      generalize hl : for_steps (nthroot_body sn (if n < 0 then -n else n).toNat)
        (step_list prec) one = ll at h
      cases ll with
      | error e => exact nthroot_loop_error _ _ _ _ _ hl
      | ok res_p =>
        simp only at h
        generalize (if ldeg ≠ 0 then mul_pow_var res_p var (ldeg.tdiv (if n < 0 then -n else n))
          prec else res_p) = r1 at h
        by_cases hneg : n < 0
        · simp only [hneg, decide_True, if_true] at h
          cases h
        · simp only [hneg, decide_False, Bool.false_eq_true, if_false] at h
          generalize hi : series_invert r1 var prec = ii at h
          cases ii with
          | error e =>
            simp only [Except.error.injEq] at h
            have := series_invert_error _ _ _ _ hi
            rw [h] at this
            cases this
          | ok r => cases h

theorem get_coeff_compose_trunc_of_le (c : ℕ → ℚ) (s : fp_t) (n k : ℕ) (h : n ≤ k) :
    get_coeff (compose_trunc c s n) k = 0 := by
  rw [get_coeff_compose_trunc, if_neg (by omega)]

theorem get_coeff_mul_full_zero (a b : fp_t) :
    get_coeff (mul_full a b) 0 = get_coeff a 0 * get_coeff b 0 := by
  rw [← coeff_toPS, toPS_mul_full]
  simp only [coeff_zero_eq_constantCoeff, map_mul]
  rw [← coeff_zero_eq_constantCoeff_apply, ← coeff_zero_eq_constantCoeff_apply, coeff_toPS,
    coeff_toPS]

theorem get_coeff_pow_zero (var : fp_t) (k prec : ℕ) (hk : 1 ≤ k) (hvar : get_coeff var 0 = 0) :
    get_coeff (pow var k prec) 0 = 0 := by
  cases k with
  | zero => omega
  | succ k =>
    rw [pow, mul, get_coeff_mullow]
    split_ifs
    · simp only [coeff_zero_eq_constantCoeff, map_mul]
      rw [← coeff_zero_eq_constantCoeff_apply (toPS var), coeff_toPS, hvar, mul_zero]
    · rfl

theorem toShort_natCast_of_lt (v : ℕ) (h : v < 32768) : toShort (v : ℤ) = (v : ℤ) :=
  toShort_of_small _ (by omega) (by omega)

theorem mul_pow_var_neg (s var : fp_t) (v prec : ℕ) (hv : 1 ≤ v) :
    mul_pow_var s var (-(v : ℤ)) prec = s.drop v := by
  unfold mul_pow_var
  rw [if_pos (by omega)]
  simp

/-- Supporting C8: while the valuation fits a `short`, an exponent that does not divide it is
rejected with the Puiseux error. -/
theorem series_nthroot_puiseux (step_list : ℕ → List ℕ) (s : fp_t) (n : ℤ) (var : fp_t)
    (prec v : ℕ) (hv : get_coeff s v ≠ 0) (hlow : ∀ i < v, get_coeff s i = 0)
    (hsmall : v < 32768) (h0 : n ≠ 0) (h1 : n ≠ 1) (h2 : n ≠ -1) (hdiv : ¬ n ∣ (v : ℤ)) :
    series_nthroot step_list s n var prec = .error .puiseux := by
  unfold series_nthroot
  rw [if_neg h0, if_neg h1, if_neg h2, ldegree_eq s v hv hlow]
  simp only
  rw [toShort_natCast_of_lt v hsmall, if_pos]
  intro h
  exact hdiv (Int.dvd_of_tmod_eq_zero h)

/-- Supporting C9: while the valuation fits a `short` and is divisible by `n`, a leading
coefficient without exact rational `|n|`-th root makes `series_nthroot` fail in `root`. -/
theorem series_nthroot_no_exact_root (step_list : ℕ → List ℕ) (s : fp_t) (n : ℤ) (var : fp_t)
    (prec v : ℕ) (hv : get_coeff s v ≠ 0) (hlow : ∀ i < v, get_coeff s i = 0)
    (hsmall : v < 32768) (hn : 2 ≤ n.natAbs) (hdiv : n ∣ (v : ℤ))
    (hroot : ¬ ∃ q : ℚ, q ^ n.natAbs = get_coeff s v) :
    series_nthroot step_list s n var prec = .error .no_exact_root := by
  have hl := ldegree_eq s v hv hlow
  rw [series_nthroot_eq_main step_list s var n prec (by omega) (by omega) (by omega)
    (by rw [hl, toShort_natCast_of_lt v hsmall]; exact Int.tmod_eq_zero_of_dvd hdiv), hl,
    toShort_natCast_of_lt v hsmall]
  have hct : find_cf (if (v : ℤ) ≠ 0 then mul_pow_var s var (-(v : ℤ)) prec else s) var 0
      = get_coeff s v := by
    unfold find_cf
    by_cases hv0 : v = 0
    · subst hv0; simp
    · rw [if_pos (by exact_mod_cast hv0), mul_pow_var_neg s var v prec (by omega),
        get_coeff_drop, Nat.add_zero]
  have hm : (if n < 0 then -n else n).toNat = n.natAbs := by
    split_ifs <;> omega
  unfold nthroot_main
  simp only
  rw [hct, hm]
  cases hr : root (get_coeff s v) n.natAbs with
  | error e =>
    simp only
    rw [root_error _ _ _ hr]
  | ok r => exact absurd ⟨r, root_sound _ _ _ hr⟩ hroot

/-- Supporting C7: for a positive valuation the reattached series `x·var^(ldeg/n)` has no constant
term, so the final `series_invert` always throws. -/
theorem series_nthroot_positive_valuation (step_list : ℕ → List ℕ) (s var : fp_t)
    (n prec v : ℕ) (hn : 2 ≤ n) (hv : get_coeff s v ≠ 0) (hlow : ∀ i < v, get_coeff s i = 0)
    (hv1 : 1 ≤ v) (hsmall : v < 32768) (hdiv : n ∣ v) (hroot : ∃ q : ℚ, q ^ n = get_coeff s v)
    (hvar : get_coeff var 0 = 0) :
    series_nthroot step_list s (n : ℤ) var prec = .error .laurent := by
  have hl := ldegree_eq s v hv hlow
  have hdivz : (n : ℤ) ∣ (v : ℤ) := Int.natCast_dvd_natCast.mpr hdiv
  rw [series_nthroot_eq_main step_list s var n prec (by omega) (by omega) (by omega)
    (by rw [hl, toShort_natCast_of_lt v hsmall]; exact Int.tmod_eq_zero_of_dvd hdivz), hl,
    toShort_natCast_of_lt v hsmall]
  have hv0 : (v : ℤ) ≠ 0 := by omega
  have hneg : ¬ ((n : ℤ) < 0) := by omega
  obtain ⟨ctroot, hctroot, _⟩ := root_complete (get_coeff s v) n (by omega) hroot
  unfold nthroot_main
  simp only [if_pos hv0, if_neg hneg, Int.toNat_ofNat, find_cf,
    mul_pow_var_neg s var v prec hv1, get_coeff_drop, Nat.add_zero, hctroot,
    scalar_div_checked, if_neg hv]
  cases hloop : for_steps (nthroot_body (scalar_div (List.drop v s) (get_coeff s v)) n)
      (step_list prec) one with
  | error e => exact absurd hloop (nthroot_loop_error _ _ _ _ _)
  | ok x =>
    simp only [hneg, decide_False, Bool.false_eq_true, if_false]
    have hq : Int.tdiv (v : ℤ) (n : ℤ) = ((v / n : ℕ) : ℤ) := by
      rw [Int.tdiv_eq_ediv (by omega) (by omega)]
      norm_cast
    have hq1 : 1 ≤ v / n := by
      obtain ⟨c, hc⟩ := hdiv
      subst hc
      rw [Nat.mul_div_cancel_left c (by omega)]
      rcases Nat.eq_zero_or_pos c with h | h
      · subst h; omega
      · exact h
    have hz : get_coeff (mul_pow_var x var (Int.tdiv (v : ℤ) (n : ℤ)) prec) 0 = 0 := by
      rw [hq]
      unfold mul_pow_var
      rw [if_neg (by omega), get_coeff_mul_full_zero, Int.toNat_ofNat,
        get_coeff_pow_zero var _ prec hq1 hvar, mul_zero]
    unfold series_invert
    rw [if_neg (by simpa using hz)]

theorem ldegree_replicate_append (v : ℕ) (c : ℚ) (hc : c ≠ 0) :
    ldegree (List.replicate v 0 ++ [c]) = v := by
  apply ldegree_eq
  · rw [get_coeff_replicate_append, if_neg (by omega), Nat.sub_self]
    simpa [get_coeff] using hc
  · intro i hi
    rw [get_coeff_replicate_append, if_pos hi]

theorem root_zero_three : root 0 3 = .ok 0 := by
  simp [root, nat_root, List.range_succ, List.find?]

theorem root_two_three : root 2 3 = .error .no_exact_root := by
  simp [root, nat_root, List.range_succ, List.find?]

theorem nthroot_wrapped_valuation (step_list : ℕ → List ℕ) (s var : fp_t) (prec : ℕ)
    (hl : ldegree s = 32770) (h0 : get_coeff s 0 = 0) :
    series_nthroot step_list s 3 var prec = .error .flint_domain := by
  have hshort : toShort ((32770 : ℕ) : ℤ) = -32766 := by decide
  rw [series_nthroot_eq_main _ _ _ _ _ (by decide) (by decide) (by decide)
    (by rw [hl, hshort]; decide), hl, hshort]
  have hct : get_coeff (mul_pow_var s var (- -32766) prec) 0 = 0 := by
    unfold mul_pow_var
    rw [if_neg (by decide), get_coeff_mul_full_zero, h0, zero_mul]
  unfold nthroot_main
  simp only [if_pos (show (-32766 : ℤ) ≠ 0 by decide), find_cf, hct,
    if_neg (show ¬ ((3 : ℤ) < 0) by decide), show (3 : ℤ).toNat = 3 from rfl, root_zero_three,
    scalar_div_checked, if_true]

theorem nthroot_wrapped_valuation_puiseux (step_list : ℕ → List ℕ) (s var : fp_t) (prec : ℕ)
    (hl : ldegree s = 32769) :
    series_nthroot step_list s 3 var prec = .error .puiseux := by
  have hshort : toShort ((32769 : ℕ) : ℤ) = -32767 := by decide
  unfold series_nthroot
  rw [if_neg (by decide), if_neg (by decide), if_neg (by decide), hl]
  simp only
  rw [hshort, if_pos (by decide)]

/-! ### The loops of `series_sin` and `series_cos` for an arbitrary precision -/

/-- No divisor of the loop of `series_sin` is zero while `i ≤ 32767`. -/
theorem sin_divisors_ne_zero (t : ℕ) (ht : t ≤ 32767) :
    toShort (2 * (t : ℤ) + 1) ≠ 0 ∧ (t ≠ 0 → 1 - toShort (2 * (t : ℤ) + 1) ≠ 0) := by
  unfold toShort
  constructor
  · omega
  · intro h; omega

/-- No divisor of the loop of `series_cos` is zero while `1 ≤ i ≤ 32767`. -/
theorem cos_divisors_ne_zero (t : ℕ) (h1 : 1 ≤ t) (ht : t ≤ 32767) :
    toShort (2 * (t : ℤ)) ≠ 0 ∧ (t ≠ 0 → 1 - toShort (2 * (t : ℤ)) ≠ 0) := by
  unfold toShort
  constructor
  · omega
  · intro h; omega

/-- The closed-form path of `series_sin` as a sum over the loop iterations. -/
theorem series_sin_loop_coeff (s var : fp_t) (prec : ℕ) (hs : get_coeff s 0 = 0)
    (hdeg : degree s ≤ 8) (hprec : prec ≤ 65536) :
    ∃ r, series_sin s var prec = .ok r ∧
      ∀ k < prec, get_coeff r k = ∑ t in Finset.range (prec / 2),
        prod_iter (fun i : ℕ => toShort (2 * (i : ℤ) + 1)) 0 (t + 1) *
          coeff ℚ k (toPS s ^ (2 * t + 1)) := by
  have hnz : ∀ t < prec / 2, (fun i : ℕ => toShort (2 * (i : ℤ) + 1)) (0 + t) ≠ 0 ∧
      (0 + t ≠ 0 → 1 - (fun i : ℕ => toShort (2 * (i : ℤ) + 1)) (0 + t) ≠ 0) := by
    intro t ht
    simp only [Nat.zero_add]
    exact sin_divisors_ne_zero t (by omega)
  obtain ⟨R, hR, hk⟩ := trig_loop (fun i : ℕ => toShort (2 * (i : ℤ) + 1)) (mullow s s prec)
    prec s zero 0 (prec / 2) hnz
  refine ⟨R, ?_, ?_⟩
  · unfold series_sin
    rw [if_neg (by simpa using hs), if_neg (by omega)]
    simp only
    rw [sin_body_eq, hR]
  · intro k hkp
    rw [hk k, get_coeff_zero, zero_add]
    apply Finset.sum_congr rfl
    intro t _
    have := (congrX_iff prec _ _).mp (toPS_sin_monom s prec t) k hkp
    rw [coeff_toPS] at this
    rw [this]

/-- The closed-form path of `series_cos` as a sum over the loop iterations. -/
theorem series_cos_loop_coeff (s var : fp_t) (prec : ℕ) (hs : get_coeff s 0 = 0)
    (hdeg : degree s ≤ 8) (hprec : prec ≤ 65535) :
    ∃ r, series_cos s var prec = .ok r ∧
      ∀ k < prec, get_coeff r k = get_coeff one k + ∑ t in Finset.range (prec / 2),
        prod_iter (fun i : ℕ => toShort (2 * (i : ℤ))) 1 (t + 1) *
          coeff ℚ k (toPS s ^ (2 * (t + 1))) := by
  have hnz : ∀ t < prec / 2, (fun i : ℕ => toShort (2 * (i : ℤ))) (1 + t) ≠ 0 ∧
      (1 + t ≠ 0 → 1 - (fun i : ℕ => toShort (2 * (i : ℤ))) (1 + t) ≠ 0) := by
    intro t ht
    exact cos_divisors_ne_zero (1 + t) (by omega) (by omega)
  obtain ⟨R, hR, hk⟩ := trig_loop (fun i : ℕ => toShort (2 * (i : ℤ))) (mullow s s prec)
    prec (mullow s s prec) one 1 (prec / 2) hnz
  refine ⟨R, ?_, ?_⟩
  · unfold series_cos
    rw [if_neg (by simpa using hs), if_neg (by omega)]
    simp only
    rw [cos_body_eq, hR]
  · intro k hkp
    rw [hk k]
    congr 1
    apply Finset.sum_congr rfl
    intro t _
    have := (congrX_iff prec _ _).mp (toPS_cos_monom s prec t) k hkp
    rw [coeff_toPS] at this
    rw [this]

/-- The coefficients of the composition `sin(s)` as a sum over the odd powers. -/
theorem sin_series_coeff (s : fp_t) (prec k : ℕ) (hk : k < prec) :
    get_coeff (compose_trunc sin_coeff s prec) k =
      ∑ t in Finset.range (prec / 2), sin_coeff (2 * t + 1) * coeff ℚ k (toPS s ^ (2 * t + 1)) := by
  rw [get_coeff_compose_trunc, if_pos hk, sin_compose_sum]

/-- The coefficients of the composition `cos(s)` as a sum over the even powers. -/
theorem cos_series_coeff (s : fp_t) (prec k : ℕ) (hs : get_coeff s 0 = 0) (hk : k < prec) :
    get_coeff (compose_trunc cos_coeff s prec) k =
      get_coeff one k + ∑ t in Finset.range (prec / 2),
        cos_coeff (2 * (t + 1)) * coeff ℚ k (toPS s ^ (2 * (t + 1))) := by
  have hS0 : CongrX 1 (toPS s) 0 := by
    rw [congrX_one_zero_iff, coeff_toPS]; exact hs
  rw [get_coeff_compose_trunc, if_pos hk]
  have hlast : cos_coeff prec * coeff ℚ k (toPS s ^ prec) = 0 := by
    have h0 := (congrX_iff prec _ _).mp (CongrX.pow_self_zero hS0 prec) k hk
    rw [h0]; simp
  have hext : (∑ i in Finset.range prec, cos_coeff i * coeff ℚ k (toPS s ^ i))
      = ∑ i in Finset.range (prec + 1), cos_coeff i * coeff ℚ k (toPS s ^ i) := by
    rw [Finset.sum_range_succ, hlast, add_zero]
  rw [hext, cos_compose_sum]
  have hidx : (prec + 1 + 1) / 2 = prec / 2 + 1 := by omega
  rw [hidx, Finset.sum_range_succ']
  have h0 : cos_coeff (2 * 0) * coeff ℚ k (toPS s ^ (2 * 0)) = get_coeff one k := by
    simp [cos_coeff, get_coeff_one, PowerSeries.coeff_one]
  rw [h0, add_comm]

theorem toPS_var : toPS [0, 1] = (X : ℚ⟦X⟧) := by
  ext n
  rw [coeff_toPS, PowerSeries.coeff_X]
  rcases n with _ | _ | n <;> simp [get_coeff]

theorem degree_var : degree [0, 1] ≤ 8 := by decide!

theorem sin_coeff_odd_ne_zero (t : ℕ) : sin_coeff (2 * t + 1) ≠ 0 := by
  rw [sin_coeff_odd]
  have h1 : ((-1 : ℚ)) ^ t ≠ 0 := pow_ne_zero _ (by norm_num)
  have h2 : ((2 * t + 1).factorial : ℚ) ≠ 0 := by positivity
  exact div_ne_zero h1 h2

theorem cos_coeff_even_ne_zero (t : ℕ) : cos_coeff (2 * t) ≠ 0 := by
  rw [cos_coeff_even]
  have h1 : ((-1 : ℚ)) ^ t ≠ 0 := pow_ne_zero _ (by norm_num)
  have h2 : ((2 * t).factorial : ℚ) ≠ 0 := by positivity
  exact div_ne_zero h1 h2

/-- The running coefficient of `series_sin` after the iteration `i = 16384`, where `j` has wrapped
to `-32767`. -/
theorem sin_prod_iter_wrapped :
    prod_iter (fun i : ℕ => toShort (2 * (i : ℤ) + 1)) 0 16385 =
      sin_coeff 32767 / 32768 / (-32767) := by
  have h := sin_prod_iter 16383 (le_refl _)
  have e : prod_iter (fun i : ℕ => toShort (2 * (i : ℤ) + 1)) 0 16385 =
      prod_step (toShort (2 * ((16384 : ℕ) : ℤ) + 1)) 16384
        (prod_iter (fun i : ℕ => toShort (2 * (i : ℤ) + 1)) 0 (16383 + 1)) := by
    show prod_iter _ 0 (16384 + 1) = _
    rw [prod_iter]
  rw [e, h]
  have hj : toShort (2 * ((16384 : ℕ) : ℤ) + 1) = -32767 := by decide
  rw [hj]
  unfold prod_step
  rw [if_pos (by decide)]
  norm_num

/-- The Taylor coefficient of `sin` at degree 32769 in terms of the one at degree 32767. -/
theorem sin_coeff_32769 : sin_coeff 32769 = sin_coeff 32767 / (-32768) / 32769 := by
  have h := sin_coeff_step 16383
  have e1 : 2 * (16383 + 1) + 1 = 32769 := by norm_num
  have e2 : 2 * 16383 + 1 = 32767 := by norm_num
  rw [e1, e2] at h
  rw [h]
  norm_num

/-- Supporting C6: while `j` does not wrap (`prec ≤ 32769`), every coefficient below `prec` of the
closed-form path is the coefficient of the Taylor sum of `(-1)^i s^(2i+1) / (2i+1)!`; the
`prec / 2` iterations omit no term that contributes below degree `prec`. -/
theorem series_sin_taylor (s var : fp_t) (prec : ℕ) (hs : get_coeff s 0 = 0)
    (hdeg : degree s ≤ 8) (hprec : prec ≤ 32769) :
    ∃ r, series_sin s var prec = .ok r ∧
      ∀ k < prec, get_coeff r k = ∑ i in Finset.range prec,
        (-1) ^ i / ((2 * i + 1).factorial : ℚ) * get_coeff (pow_full s (2 * i + 1)) k := by
  obtain ⟨r, hr, hlow, _⟩ := series_sin_closed_form s var prec hs hdeg hprec
  refine ⟨r, hr, ?_⟩
  intro k hk
  have hS0 : CongrX 1 (toPS s) 0 := by
    rw [congrX_one_zero_iff, coeff_toPS]; exact hs
  rw [hlow k hk, sin_series_coeff s prec k hk]
  have hsub : Finset.range (prec / 2) ⊆ Finset.range prec :=
    Finset.range_subset.mpr (Nat.div_le_self prec 2)
  rw [← Finset.sum_subset hsub]
  · apply Finset.sum_congr rfl
    intro t _
    rw [sin_coeff_odd, ← coeff_toPS, toPS_pow_full]
  · intro t _ ht
    rw [Finset.mem_range] at ht
    rw [← coeff_toPS, toPS_pow_full]
    have h0 := (congrX_iff (2 * t + 1) _ _).mp (CongrX.pow_self_zero hS0 (2 * t + 1)) k
      (by omega)
    rw [h0]
    simp

/-! ### The Pythagorean identity -/

theorem deriv_sin_series :
    PowerSeries.derivative ℚ (PowerSeries.mk sin_coeff) = PowerSeries.mk cos_coeff := by
  ext n
  rw [PowerSeries.coeff_derivative, coeff_mk, coeff_mk]
  unfold sin_coeff cos_coeff
  by_cases h : n % 2 = 0
  · rw [if_pos (by omega), if_pos h, Nat.factorial_succ]
    have e : (n + 1) / 2 = n / 2 := by omega
    rw [e]
    push_cast
    have hf : (n.factorial : ℚ) ≠ 0 := by positivity
    have hn : ((n : ℚ) + 1) ≠ 0 := by positivity
    field_simp
    ring
  · rw [if_neg (by omega), if_neg h, zero_mul]

theorem deriv_cos_series :
    PowerSeries.derivative ℚ (PowerSeries.mk cos_coeff) = -PowerSeries.mk sin_coeff := by
  ext n
  rw [PowerSeries.coeff_derivative, map_neg, coeff_mk, coeff_mk]
  unfold sin_coeff cos_coeff
  by_cases h : n % 2 = 1
  · rw [if_pos (by omega), if_pos h, Nat.factorial_succ]
    have e : (n + 1) / 2 = n / 2 + 1 := by omega
    rw [e, pow_succ]
    push_cast
    have hf : (n.factorial : ℚ) ≠ 0 := by positivity
    have hn : ((n : ℚ) + 1) ≠ 0 := by positivity
    field_simp
    ring
  · rw [if_neg (by omega), if_neg h, zero_mul, neg_zero]

/-- The formal identity `sin² + cos² = 1`. -/
theorem sin_sq_add_cos_sq :
    PowerSeries.mk sin_coeff * PowerSeries.mk sin_coeff +
      PowerSeries.mk cos_coeff * PowerSeries.mk cos_coeff = (1 : ℚ⟦X⟧) := by
  apply PowerSeries.derivative.ext
  · rw [map_add, Derivation.leibniz, Derivation.leibniz, deriv_sin_series, deriv_cos_series,
      Derivation.map_one_eq_zero]
    simp only [smul_eq_mul]
    ring
  · simp only [map_add, map_mul, map_one]
    rw [← coeff_zero_eq_constantCoeff_apply, ← coeff_zero_eq_constantCoeff_apply, coeff_mk,
      coeff_mk]
    simp [sin_coeff, cos_coeff]

/-- Composition with a series without constant term is multiplicative below degree `N`. -/
theorem comp_mul_congr (a b : ℕ → ℚ) (p : ℚ⟦X⟧) (hp : CongrX 1 p 0) (N : ℕ) :
    CongrX N ((∑ i in Finset.range N, C ℚ (a i) * p ^ i) *
        (∑ i in Finset.range N, C ℚ (b i) * p ^ i))
      (∑ m in Finset.range N,
        C ℚ (coeff ℚ m (PowerSeries.mk a * PowerSeries.mk b)) * p ^ m) := by
  have e1 : (∑ i in Finset.range N, C ℚ (a i) * p ^ i)
      = (trunc N (PowerSeries.mk a)).eval₂ (C ℚ) p := by
    rw [eval₂_trunc_eq_sum_range]
    simp only [coeff_mk]
  have e2 : (∑ i in Finset.range N, C ℚ (b i) * p ^ i)
      = (trunc N (PowerSeries.mk b)).eval₂ (C ℚ) p := by
    rw [eval₂_trunc_eq_sum_range]
    simp only [coeff_mk]
  have e3 : (∑ m in Finset.range N,
      C ℚ (coeff ℚ m (PowerSeries.mk a * PowerSeries.mk b)) * p ^ m)
      = (trunc N (PowerSeries.mk a * PowerSeries.mk b)).eval₂ (C ℚ) p := by
    rw [eval₂_trunc_eq_sum_range]
  rw [e1, e2, e3, ← Polynomial.eval₂_mul]
  have hdvd : (Polynomial.X : Polynomial ℚ) ^ N ∣
      trunc N (PowerSeries.mk a) * trunc N (PowerSeries.mk b)
        - trunc N (PowerSeries.mk a * PowerSeries.mk b) := by
    rw [Polynomial.X_pow_dvd_iff]
    intro d hd
    rw [Polynomial.coeff_sub, coeff_trunc, if_pos hd,
      coeff_mul_eq_coeff_trunc_mul_trunc _ _ hd, ← Polynomial.coe_mul, Polynomial.coeff_coe,
      sub_self]
  obtain ⟨R, hR⟩ := hdvd
  have hsplit : trunc N (PowerSeries.mk a) * trunc N (PowerSeries.mk b)
      = trunc N (PowerSeries.mk a * PowerSeries.mk b) + Polynomial.X ^ N * R := by
    rw [← hR]; ring
  rw [hsplit, Polynomial.eval₂_add, Polynomial.eval₂_mul, Polynomial.eval₂_X_pow]
  have hz : CongrX N (p ^ N * Polynomial.eval₂ (C ℚ) p R) 0 := by
    have := CongrX.mul_right (Polynomial.eval₂ (C ℚ) p R) (CongrX.pow_self_zero hp N)
    rwa [zero_mul] at this
  have := (CongrX.refl N (Polynomial.eval₂ (C ℚ) p
    (trunc N (PowerSeries.mk a * PowerSeries.mk b)))).add hz
  rwa [add_zero] at this

/-- The Pythagorean identity for the truncated compositions. -/
theorem comp_sin_sq_add_cos_sq (p : ℚ⟦X⟧) (hp : CongrX 1 p 0) (N : ℕ) :
    CongrX N ((∑ i in Finset.range N, C ℚ (sin_coeff i) * p ^ i) *
        (∑ i in Finset.range N, C ℚ (sin_coeff i) * p ^ i) +
        (∑ i in Finset.range N, C ℚ (cos_coeff i) * p ^ i) *
        (∑ i in Finset.range N, C ℚ (cos_coeff i) * p ^ i)) 1 := by
  have h := (comp_mul_congr sin_coeff sin_coeff p hp N).add
    (comp_mul_congr cos_coeff cos_coeff p hp N)
  refine h.trans ?_
  rw [← Finset.sum_add_distrib]
  have e : ∀ m ∈ Finset.range N,
      C ℚ (coeff ℚ m (PowerSeries.mk sin_coeff * PowerSeries.mk sin_coeff)) * p ^ m +
        C ℚ (coeff ℚ m (PowerSeries.mk cos_coeff * PowerSeries.mk cos_coeff)) * p ^ m
      = C ℚ (coeff ℚ m (1 : ℚ⟦X⟧)) * p ^ m := by
    intro m _
    rw [← add_mul, ← map_add, ← map_add, sin_sq_add_cos_sq]
  rw [Finset.sum_congr rfl e]
  cases N with
  | zero => exact CongrX.zero_left _ _
  | succ N =>
    rw [Finset.sum_range_succ']
    have hz : ∀ m ∈ Finset.range N, C ℚ (coeff ℚ (m + 1) (1 : ℚ⟦X⟧)) * p ^ (m + 1) = 0 := by
      intro m _
      rw [PowerSeries.coeff_one, if_neg (by omega), map_zero, zero_mul]
    rw [Finset.sum_eq_zero hz, zero_add]
    simp only [PowerSeries.coeff_one, if_true, map_one, pow_zero, mul_one]
    exact CongrX.refl _ _

/-- Both paths of `series_sin` give the composition `sin(s)` below `prec`. -/
theorem series_sin_below (s var : fp_t) (prec : ℕ) (hs : get_coeff s 0 = 0)
    (hprec : degree s ≤ 8 → prec ≤ 32769) :
    ∃ r, series_sin s var prec = .ok r ∧
      CongrX prec (toPS r) (∑ i in Finset.range prec, C ℚ (sin_coeff i) * toPS s ^ i) := by
  by_cases hdeg : degree s > 8
  · refine ⟨compose_trunc sin_coeff s prec, ?_, toPS_compose_trunc _ _ _⟩
    unfold series_sin
    rw [if_neg (by simpa using hs), if_pos hdeg]
    simp [sin_series, hs]
  · have hd8 : degree s ≤ 8 := not_lt.mp hdeg
    obtain ⟨r, hr, hlow, _⟩ := series_sin_closed_form s var prec hs hd8 (hprec hd8)
    exact ⟨r, hr, ((congrX_toPS_iff prec _ _).mpr hlow).trans (toPS_compose_trunc _ _ _)⟩

/-- Both paths of `series_cos` give the composition `cos(s)` below `prec`. -/
theorem series_cos_below (s var : fp_t) (prec : ℕ) (hs : get_coeff s 0 = 0)
    (hprec : degree s ≤ 8 → prec ≤ 32767) :
    ∃ r, series_cos s var prec = .ok r ∧
      CongrX prec (toPS r) (∑ i in Finset.range prec, C ℚ (cos_coeff i) * toPS s ^ i) := by
  by_cases hdeg : degree s > 8
  · refine ⟨compose_trunc cos_coeff s prec, ?_, toPS_compose_trunc _ _ _⟩
    unfold series_cos
    rw [if_neg (by simpa using hs), if_pos hdeg]
    simp [cos_series, hs]
  · have hd8 : degree s ≤ 8 := not_lt.mp hdeg
    obtain ⟨r, hr, hlow, _⟩ := series_cos_closed_form s var prec hs hd8 (hprec hd8)
    exact ⟨r, hr, ((congrX_toPS_iff prec _ _).mpr hlow).trans (toPS_compose_trunc _ _ _)⟩

theorem toPS_sq_sum (rs rc : fp_t) (prec : ℕ) :
    CongrX prec (toPS (add (mul rs rs prec) (mul rc rc prec)))
      (toPS rs * toPS rs + toPS rc * toPS rc) := by
  rw [toPS_add]
  exact (toPS_mullow_congr rs rs prec).add (toPS_mullow_congr rc rc prec)

/-- Supporting C5: while `j` does not wrap (`prec ≤ 32767` on the closed-form path),
`sin² + cos²` computed with truncated products is the constant series `1` below `prec`. -/
theorem series_sin_cos_pythagorean (s var : fp_t) (prec : ℕ) (hs : get_coeff s 0 = 0)
    (hprec : degree s ≤ 8 → prec ≤ 32767) :
    ∃ rs rc, series_sin s var prec = .ok rs ∧ series_cos s var prec = .ok rc ∧
      ∀ k < prec, get_coeff (add (mul rs rs prec) (mul rc rc prec)) k = get_coeff one k := by
  obtain ⟨rs, hrs, hsc⟩ := series_sin_below s var prec hs (fun h => by have := hprec h; omega)
  obtain ⟨rc, hrc, hcc⟩ := series_cos_below s var prec hs hprec
  refine ⟨rs, rc, hrs, hrc, ?_⟩
  have hS0 : CongrX 1 (toPS s) 0 := by
    rw [congrX_one_zero_iff, coeff_toPS]; exact hs
  have h : CongrX prec (toPS (add (mul rs rs prec) (mul rc rc prec))) (toPS one) := by
    rw [toPS_one]
    exact ((toPS_sq_sum rs rc prec).trans ((hsc.mul hsc).add (hcc.mul hcc))).trans
      (comp_sin_sq_add_cos_sq (toPS s) hS0 prec)
  exact (congrX_toPS_iff prec _ _).mp h

/-- The running coefficient of `series_cos` after the iteration `i = 16384`, where `j` has wrapped
to `-32768`. -/
theorem cos_prod_iter_wrapped :
    prod_iter (fun i : ℕ => toShort (2 * (i : ℤ))) 1 16384 =
      cos_coeff 32766 / 32769 / (-32768) := by
  have h := cos_prod_iter 16383 (le_refl _)
  have e : prod_iter (fun i : ℕ => toShort (2 * (i : ℤ))) 1 16384 =
      prod_step (toShort (2 * ((16384 : ℕ) : ℤ))) 16384
        (prod_iter (fun i : ℕ => toShort (2 * (i : ℤ))) 1 16383) := by
    show prod_iter _ 1 (16383 + 1) = _
    rw [prod_iter]
  rw [e, h]
  have hj : toShort (2 * ((16384 : ℕ) : ℤ)) = -32768 := by decide
  rw [hj]
  unfold prod_step
  rw [if_pos (by decide)]
  norm_num

/-- The Taylor coefficient of `cos` at degree 32768 in terms of the one at degree 32766. -/
theorem cos_coeff_32768 : cos_coeff 32768 = cos_coeff 32766 / (-32767) / 32768 := by
  have h := cos_coeff_step 16383
  have e1 : 2 * (16383 + 1) = 32768 := by norm_num
  have e2 : 2 * 16383 = 32766 := by norm_num
  rw [e1, e2] at h
  rw [h]
  norm_num

theorem cos_wrap_defect_ne_zero :
    cos_coeff 32766 / 32769 / (-32768) - cos_coeff 32768 ≠ 0 := by
  rw [cos_coeff_32768]
  have hne : cos_coeff 32766 ≠ 0 := cos_coeff_even_ne_zero 16383
  intro h
  field_simp at h
  ring_nf at h
  norm_num at h
  exact hne h

/-- The closed-form cosine is the composition `cos(s)` plus the defect of the coefficient computed
in the last iteration, when the earlier iterations are right. -/
theorem series_cos_defect (s var : fp_t) (prec m : ℕ) (hs : get_coeff s 0 = 0)
    (hdeg : degree s ≤ 8) (hprec : prec ≤ 65535) (hm : prec / 2 = m + 1) (hm1 : m ≤ 16383) :
    ∃ rc, series_cos s var prec = .ok rc ∧
      CongrX prec (toPS rc)
        ((∑ i in Finset.range prec, C ℚ (cos_coeff i) * toPS s ^ i) +
          C ℚ (prod_iter (fun i : ℕ => toShort (2 * (i : ℤ))) 1 (m + 1) - cos_coeff (2 * (m + 1)))
            * toPS s ^ (2 * (m + 1))) := by
  obtain ⟨rc, hrc, hk⟩ := series_cos_loop_coeff s var prec hs hdeg hprec
  refine ⟨rc, hrc, ?_⟩
  refine CongrX.trans ?_ ((toPS_compose_trunc cos_coeff s prec).add (CongrX.refl _ _))
  rw [congrX_iff]
  intro k hkp
  rw [map_add, coeff_toPS, coeff_toPS, hk k hkp, cos_series_coeff s prec k hs hkp, add_assoc]
  congr 1
  rw [hm, Finset.sum_range_succ, Finset.sum_range_succ]
  have hlow : ∀ t ∈ Finset.range m,
      prod_iter (fun i : ℕ => toShort (2 * (i : ℤ))) 1 (t + 1) *
        coeff ℚ k (toPS s ^ (2 * (t + 1)))
      = cos_coeff (2 * (t + 1)) * coeff ℚ k (toPS s ^ (2 * (t + 1))) := by
    intro t ht
    rw [Finset.mem_range] at ht
    rw [cos_prod_iter (t + 1) (by omega)]
  rw [Finset.sum_congr rfl hlow, add_assoc]
  congr 1
  rw [coeff_C_mul]
  ring

/-- A defect `d·p^(2m+2)` of the cosine in its top coefficient shows in `sin² + cos²`. -/
theorem pythagorean_defect (A B : ℚ⟦X⟧) (d : ℚ) (N : ℕ) (hN : 2 ≤ N)
    (hA : CongrX N A (∑ i in Finset.range N, C ℚ (sin_coeff i) * (X : ℚ⟦X⟧) ^ i))
    (hB : CongrX N B ((∑ i in Finset.range N, C ℚ (cos_coeff i) * (X : ℚ⟦X⟧) ^ i)
      + C ℚ d * X ^ (N - 1))) :
    coeff ℚ (N - 1) (A * A + B * B) = coeff ℚ (N - 1) (1 : ℚ⟦X⟧) + 2 * d := by
  have hX0 : CongrX 1 (X : ℚ⟦X⟧) 0 := by
    rw [congrX_one_zero_iff]; simp
  set Sn := ∑ i in Finset.range N, C ℚ (sin_coeff i) * (X : ℚ⟦X⟧) ^ i with hSn
  set Cn := ∑ i in Finset.range N, C ℚ (cos_coeff i) * (X : ℚ⟦X⟧) ^ i with hCn
  have h1 : CongrX N (A * A + B * B)
      (Sn * Sn + (Cn + C ℚ d * X ^ (N - 1)) * (Cn + C ℚ d * X ^ (N - 1))) :=
    (hA.mul hA).add (hB.mul hB)
  have h2 := (congrX_iff N _ _).mp h1 (N - 1) (by omega)
  have hpy := (congrX_iff N _ _).mp (comp_sin_sq_add_cos_sq X hX0 N) (N - 1) (by omega)
  rw [← hSn, ← hCn] at hpy
  have hC0 : coeff ℚ 0 Cn = 1 := by
    have h := comp_congr_of_le cos_coeff X hX0 1 N (by omega)
    have h0 := (congrX_iff 1 _ _).mp h 0 (by norm_num)
    rw [← hCn] at h0
    rw [← h0]
    simp [cos_coeff]
  have e : Sn * Sn + (Cn + C ℚ d * X ^ (N - 1)) * (Cn + C ℚ d * X ^ (N - 1))
      = (Sn * Sn + Cn * Cn) + X ^ (N - 1) * (C ℚ (2 * d) * Cn)
        + X ^ (N - 1) * (X ^ (N - 1) * C ℚ (d * d)) := by
    rw [map_mul, map_mul]
    have h2c : (C ℚ) 2 = (2 : ℚ⟦X⟧) := map_ofNat (C ℚ) 2
    rw [h2c]
    ring
  rw [h2, e, map_add, map_add, hpy, PowerSeries.coeff_X_pow_mul', if_pos (le_refl _),
    Nat.sub_self, coeff_C_mul, hC0, PowerSeries.coeff_X_pow_mul', if_pos (le_refl _),
    Nat.sub_self]
  rw [PowerSeries.coeff_X_pow_mul', if_neg (by omega)]
  ring

/-- Supporting C1 (`n = 1`): the input is returned, and its first truncated power is the input
below `prec`. -/
theorem series_nthroot_one_correct (step_list : ℕ → List ℕ) (s var : fp_t) (prec : ℕ) :
    series_nthroot step_list s 1 var prec = .ok s ∧
      ∀ k < prec, get_coeff (pow s 1 prec) k = get_coeff s k := by
  refine ⟨by simp [series_nthroot], ?_⟩
  rw [← congrX_toPS_iff]
  have := toPS_pow_congr s 1 prec
  rwa [pow_one] at this

/-- Supporting C1 (`n = -1`): the result is the truncated inverse, and the truncated inverse of
its first power is the input below `prec`. -/
theorem series_nthroot_neg_one_correct (step_list : ℕ → List ℕ) (s var : fp_t) (prec : ℕ)
    (hs : get_coeff s 0 ≠ 0) (hprec : 1 ≤ prec) :
    ∃ r q, series_nthroot step_list s (-1) var prec = .ok r ∧
      series_invert (pow r 1 prec) var prec = .ok q ∧
      ∀ k < prec, get_coeff q k = get_coeff s k := by
  have hr : series_nthroot step_list s (-1) var prec = .ok (inv_coeffs s prec) := by
    unfold series_nthroot
    rw [if_neg (by decide), if_neg (by decide), if_pos rfl]
    exact series_invert_ok s var prec hs
  set r := inv_coeffs s prec with hrdef
  have hsr : CongrX prec (toPS s * toPS r) 1 := toPS_mul_inv_coeffs s prec hs
  have hpr : CongrX prec (toPS (pow r 1 prec)) (toPS r) := by
    have := toPS_pow_congr r 1 prec
    rwa [pow_one] at this
  have hp0 : get_coeff (pow r 1 prec) 0 ≠ 0 := by
    have h1 : CongrX prec (toPS (pow r 1 prec) ^ 1 * toPS s) 1 := by
      rw [pow_one]
      have := (CongrX.mul_right (toPS s) hpr).trans (by rw [mul_comm]; exact hsr)
      exact this
    have := coeff_zero_ne_zero_of_congr hprec (le_refl 1) h1
    rwa [coeff_toPS] at this
  refine ⟨r, inv_coeffs (pow r 1 prec) prec, hr, series_invert_ok _ var prec hp0, ?_⟩
  rw [← congrX_toPS_iff]
  have h1 : CongrX prec (toPS (pow r 1 prec) * toPS (inv_coeffs (pow r 1 prec) prec)) 1 :=
    toPS_mul_inv_coeffs _ prec hp0
  have h2 : CongrX prec (toPS (pow r 1 prec) * toPS s) 1 :=
    (CongrX.mul_right (toPS s) hpr).trans (by rw [mul_comm]; exact hsr)
  exact CongrX.inv_unique h1 h2

theorem nthroot_main_zero_neg (step_list : ℕ → List ℕ) (s var : fp_t) (m prec : ℕ)
    (ctroot : ℚ) (x : fp_t) (hm : 1 ≤ m) (hs : get_coeff s 0 ≠ 0)
    (hroot : root (get_coeff s 0) m = .ok ctroot)
    (hloop : for_steps (nthroot_body (scalar_div s (get_coeff s 0)) m) (step_list prec) one
      = .ok x) :
    nthroot_main step_list s (-(m : ℤ)) var prec 0 = .ok (scalar_mul x ctroot) := by
  have hneg : (-(m : ℤ)) < 0 := by omega
  unfold nthroot_main
  simp only [ne_eq, not_true_eq_false, if_false, find_cf, if_pos hneg, neg_neg, Int.toNat_ofNat,
    hroot, scalar_div_checked, if_neg hs, hloop]
  simp [hneg]

/-- Supporting C1 (`n = -m`, `m ≥ 2`): what the code returns for a negative exponent.  The
`m`-th power of the result times `s` is the square of the constant term of `s` below `prec`, where
a reciprocal root would give `1`. -/
theorem series_nthroot_neg_result (step_list : ℕ → List ℕ) (s var : fp_t) (m prec : ℕ)
    (hm : 2 ≤ m) (hs : get_coeff s 0 ≠ 0) (hroot : ∃ q : ℚ, q ^ m = get_coeff s 0)
    (hsched : valid_schedule (step_list prec) prec) :
    ∃ r, series_nthroot step_list s (-(m : ℤ)) var prec = .ok r ∧
      ∀ k < prec, get_coeff (mul (pow r m prec) s prec) k
        = if k = 0 then get_coeff s 0 ^ 2 else 0 := by
  obtain ⟨ctroot, hctroot, hpow⟩ := root_complete (get_coeff s 0) m (by omega) hroot
  have hinit : CongrX 1 (toPS one ^ m * toPS (scalar_div s (get_coeff s 0))) 1 := by
    rw [toPS_one, one_pow, one_mul, congrX_iff]
    intro k hk
    have : k = 0 := by omega
    subst this
    rw [coeff_toPS, get_coeff_scalar_div]
    simp [hs]
  obtain ⟨x, hx, hxc⟩ := nthroot_loop m (by omega) (scalar_div s (get_coeff s 0))
    (step_list prec) one 1 hinit (schedule_ok_of_valid _ _ hsched)
  rw [hsched.2.2] at hxc
  simp only [Option.getD_some] at hxc
  refine ⟨scalar_mul x ctroot, ?_, ?_⟩
  · have hl : toShort (ldegree s) = 0 := by
      rw [ldegree_of_const_ne_zero s hs]; rfl
    rw [series_nthroot_eq_main step_list s var (-(m : ℤ)) prec (by omega) (by omega) (by omega)
      (by rw [hl]; simp), hl]
    exact nthroot_main_zero_neg step_list s var m prec ctroot x (by omega) hs hctroot hx
  · intro k hk
    have hc : CongrX prec (toPS (mul (pow (scalar_mul x ctroot) m prec) s prec))
        (C ℚ (get_coeff s 0 ^ 2)) := by
      refine (toPS_mullow_congr _ _ prec).trans ?_
      refine (CongrX.mul_right _ (toPS_pow_congr _ m prec)).trans ?_
      rw [toPS_scalar_mul, mul_pow, ← map_pow, hpow]
      rw [toPS_scalar_div] at hxc
      have h1 := CongrX.mul_left (C ℚ (get_coeff s 0 ^ 2)) hxc
      have e1 : C ℚ (get_coeff s 0 ^ 2) * (toPS x ^ m * (C ℚ (get_coeff s 0)⁻¹ * toPS s))
          = C ℚ (get_coeff s 0) * toPS x ^ m * toPS s := by
        have : C ℚ (get_coeff s 0 ^ 2) = C ℚ (get_coeff s 0) * C ℚ (get_coeff s 0) := by
          rw [← map_mul, pow_two]
        rw [this]
        have h2 : C ℚ (get_coeff s 0) * C ℚ (get_coeff s 0)⁻¹ = 1 := by
          rw [← map_mul, mul_inv_cancel₀ hs, map_one]
        calc C ℚ (get_coeff s 0) * C ℚ (get_coeff s 0) *
              (toPS x ^ m * (C ℚ (get_coeff s 0)⁻¹ * toPS s))
            = (C ℚ (get_coeff s 0) * C ℚ (get_coeff s 0)⁻¹) *
                (C ℚ (get_coeff s 0) * toPS x ^ m * toPS s) := by ring
          _ = C ℚ (get_coeff s 0) * toPS x ^ m * toPS s := by rw [h2, one_mul]
      rw [e1, mul_one] at h1
      exact h1
    have := (congrX_iff prec _ _).mp hc k hk
    rw [coeff_toPS, PowerSeries.coeff_C] at this
    exact this

theorem get_coeff_mullow_zero (a b : fp_t) (n : ℕ) (hn : 1 ≤ n) :
    get_coeff (mullow a b n) 0 = get_coeff a 0 * get_coeff b 0 := by
  rw [get_coeff_mullow, if_pos (by omega)]
  simp only [coeff_zero_eq_constantCoeff, map_mul]
  rw [← coeff_zero_eq_constantCoeff_apply, ← coeff_zero_eq_constantCoeff_apply, coeff_toPS,
    coeff_toPS]

theorem get_coeff_exp_zero (p : fp_t) (n : ℕ) (hp : get_coeff p 0 = 0) (hn : 1 ≤ n) :
    get_coeff (compose_trunc exp_coeff p n) 0 = 1 := by
  have hp0 : CongrX 1 (toPS p) 0 := by
    rw [congrX_one_zero_iff, coeff_toPS]; exact hp
  have h := (congrX_iff n _ _).mp (toPS_compose_trunc exp_coeff p n) 0 (by omega)
  rw [coeff_toPS] at h
  rw [h]
  exact coeff_zero_exp_sum (toPS p) hp0 n hn

theorem get_coeff_inv_coeffs_zero (d : fp_t) (n : ℕ) (hn : 1 ≤ n) :
    get_coeff (inv_coeffs d n) 0 = 1 / get_coeff d 0 := by
  rw [get_coeff_inv_coeffs d n 0 (by omega), inv_b_zero]

/-- One iteration of the loop of `series_lambertw` at a precision `step ≥ 1`, from an iterate
without constant term: the constant term of `e·(p+1)` is `1`, the inversion succeeds and the
new iterate has no constant term. -/
theorem lambertw_body_const_term (s var : fp_t) (step : ℕ) (p : fp_t)
    (hs : get_coeff s 0 = 0) (hstep : 1 ≤ step) (hp : get_coeff p 0 = 0) :
    ∃ e p3 p1, series_exp p var step = .ok e ∧
      get_coeff (mul e (add p one) step) 0 = 1 ∧
      series_invert (mul e (add p one) step) var step = .ok p3 ∧
      lambertw_body s var step p = .ok p1 ∧ get_coeff p1 0 = 0 := by
  set e := compose_trunc exp_coeff p step with he
  have hexp : series_exp p var step = .ok e := by
    simp [series_exp, exp_series, hp, he]
  have he0 : get_coeff e 0 = 1 := get_coeff_exp_zero p step hp hstep
  have hd1 : get_coeff (mul e (add p one) step) 0 = 1 := by
    rw [mul, get_coeff_mullow_zero _ _ _ hstep, he0, get_coeff_add, hp, get_coeff_one]
    norm_num
  have hd0 : get_coeff (mul e (add p one) step) 0 ≠ 0 := by
    rw [hd1]; exact one_ne_zero
  have hinv := series_invert_ok (mul e (add p one) step) var step hd0
  refine ⟨e, inv_coeffs (mul e (add p one) step) step,
    sub p (mul (sub (mul e p step) s) (inv_coeffs (mul e (add p one) step) step) step),
    hexp, hd1, hinv, ?_, ?_⟩
  · unfold lambertw_body
    rw [hexp]
    simp only
    rw [hinv]
  · rw [get_coeff_sub, hp, mul, get_coeff_mullow_zero _ _ _ hstep, get_coeff_sub, mul,
      get_coeff_mullow_zero _ _ _ hstep, hp, hs]
    simp

/-- The loop of `series_lambertw` over steps of precision `≥ 1`, from an iterate without
constant term, succeeds and ends with an iterate without constant term. -/
theorem lambertw_loop_const_term (s var : fp_t) (steps : List ℕ) (p : fp_t)
    (hs : get_coeff s 0 = 0) (hpos : ∀ x ∈ steps, 1 ≤ x) (hp : get_coeff p 0 = 0) :
    ∃ p1, for_steps (lambertw_body s var) steps p = .ok p1 ∧ get_coeff p1 0 = 0 := by
  induction steps generalizing p with
  | nil => exact ⟨p, rfl, hp⟩
  | cons step rest ih =>
    obtain ⟨_, _, p1, _, _, _, hb, hp1⟩ := lambertw_body_const_term s var step p hs
      (hpos step (List.mem_cons_self _ _)) hp
    obtain ⟨p2, hl, hp2⟩ := ih p1 (fun x hx => hpos x (List.mem_cons_of_mem _ hx)) hp1
    refine ⟨p2, ?_, hp2⟩
    simp only [for_steps, hb]
    exact hl

/-- The statement `x^n · sn = 1` on all coefficients below `k`, with exact products, as a
congruence of power series. -/
theorem newton_residual_iff (x sn : fp_t) (n k : ℕ) :
    (∀ i < k, get_coeff (mul_full (pow_full x n) sn) i = get_coeff one i) ↔
      CongrX k (toPS x ^ n * toPS sn) 1 := by
  rw [← congrX_toPS_iff, toPS_mul_full, toPS_pow_full, toPS_one]

theorem get_coeff_neg (a : fp_t) (k : ℕ) : get_coeff (neg a) k = -get_coeff a k := by
  unfold neg
  rw [get_coeff_map _ (by simp)]

theorem length_neg (a : fp_t) : (neg a).length = a.length := by
  unfold neg
  rw [List.length_map]

theorem mul_coeff_neg_neg (a b : fp_t) (k : ℕ) : mul_coeff (neg a) (neg b) k = mul_coeff a b k := by
  unfold mul_coeff
  congr 1
  apply List.map_congr_left
  intro i _
  rw [get_coeff_neg, get_coeff_neg, neg_mul_neg]

theorem mul_coeff_neg_left (a b : fp_t) (k : ℕ) : mul_coeff (neg a) b k = -mul_coeff a b k := by
  unfold mul_coeff
  rw [list_sum_range, list_sum_range, ← Finset.sum_neg_distrib]
  apply Finset.sum_congr rfl
  intro i _
  rw [get_coeff_neg, neg_mul]

theorem mullow_neg_neg (a b : fp_t) (n : ℕ) : mullow (neg a) (neg b) n = mullow a b n := by
  unfold mullow
  apply List.map_congr_left
  intro k _
  exact mul_coeff_neg_neg a b k

theorem mullow_neg_left (a b : fp_t) (n : ℕ) : mullow (neg a) b n = neg (mullow a b n) := by
  unfold mullow neg
  rw [List.map_map]
  apply List.map_congr_left
  intro k _
  exact mul_coeff_neg_left a b k

theorem scalar_mul_neg (a : fp_t) (c : ℚ) : scalar_mul (neg a) c = neg (scalar_mul a c) := by
  unfold scalar_mul neg
  rw [List.map_map, List.map_map]
  apply List.map_congr_left
  intro x _
  simp

theorem add_neg_neg (a b : fp_t) : add (neg a) (neg b) = neg (add a b) := by
  unfold add
  rw [length_neg, length_neg]
  conv_rhs => unfold neg
  rw [List.map_map]
  apply List.map_congr_left
  intro k _
  simp only [Function.comp, get_coeff_neg]
  ring

theorem dropWhile_zero_neg_length (l : List ℚ) :
    ((l.map fun x => -x).dropWhile fun c => decide (c = 0)).length
      = (l.dropWhile fun c => decide (c = 0)).length := by
  induction l with
  | nil => rfl
  | cons c cs ih =>
    by_cases hc : c = 0
    · subst hc
      simpa [List.dropWhile_cons] using ih
    · simp [List.dropWhile_cons, hc]

theorem degree_neg (s : fp_t) : degree (neg s) = degree s := by
  unfold degree norm_length neg
  rw [← List.map_reverse, dropWhile_zero_neg_length]

theorem trig_body_neg (j : ℤ) (ssquare : fp_t) (prec i : ℕ) (st : TrigState) :
    trig_body j ssquare prec i (neg_state st) =
      match trig_body j ssquare prec i st with
      | .ok st1 => .ok (neg_state st1)
      | .error e => .error e := by
  unfold trig_body
  simp only [neg_state]
  cases h1 : (if i ≠ 0 then rat_div_int st.prod (1 - j) else Except.ok st.prod) with
  | error e => rfl
  | ok prod1 =>
    simp only
    cases h2 : rat_div_int prod1 j with
    | error e => rfl
    | ok prod2 =>
      simp only
      rw [scalar_mul_neg, add_neg_neg, mullow_neg_left]

theorem for_range_trig_neg (jf : ℕ → ℤ) (ssquare : fp_t) (prec lo count : ℕ) (st : TrigState) :
    for_range (fun i st => trig_body (jf i) ssquare prec i st) lo count (neg_state st) =
      match for_range (fun i st => trig_body (jf i) ssquare prec i st) lo count st with
      | .ok st1 => .ok (neg_state st1)
      | .error e => .error e := by
  induction count generalizing lo st with
  | zero => rfl
  | succ count ih =>
    rw [for_range, for_range, trig_body_neg]
    cases h : trig_body (jf lo) ssquare prec lo st with
    | error e => rfl
    | ok st1 =>
      simp only
      exact ih (lo + 1) st1

/-- The closed-form sine is odd: the loop for `-s` is the negated loop for `s`. -/
theorem series_sin_neg (s var : fp_t) (prec : ℕ) (hdeg : degree s ≤ 8) :
    series_sin (neg s) var prec =
      match series_sin s var prec with
      | .ok r => .ok (neg r)
      | .error e => .error e := by
  unfold series_sin
  rw [get_coeff_neg, degree_neg]
  by_cases h0 : get_coeff s 0 = 0
  · rw [h0]
    simp only [neg_zero, ne_eq, not_true_eq_false, if_false, if_neg (not_lt.mpr hdeg)]
    rw [mullow_neg_neg, sin_body_eq]
    have hst : ({ res_p := zero, monom := neg s, prod := 1 } : TrigState)
        = neg_state { res_p := zero, monom := s, prod := 1 } := rfl
    rw [hst, for_range_trig_neg]
    cases for_range (fun i st => trig_body ((fun i : ℕ => toShort (2 * (i : ℤ) + 1)) i)
      (mullow s s prec) prec i st) 0 (prec / 2) { res_p := zero, monom := s, prod := 1 } with
    | error e => rfl
    | ok st1 => rfl
  · have h1 : -get_coeff s 0 ≠ 0 := by simpa using h0
    rw [if_pos h1, if_pos h0]

/-- The closed-form cosine is even: it reads `s` only through `mullow(s, s, prec)`. -/
theorem series_cos_neg (s var : fp_t) (prec : ℕ) (hdeg : degree s ≤ 8) :
    series_cos (neg s) var prec = series_cos s var prec := by
  unfold series_cos
  rw [get_coeff_neg, degree_neg]
  by_cases h0 : get_coeff s 0 = 0
  · rw [h0]
    simp only [neg_zero, ne_eq, not_true_eq_false, if_false, if_neg (not_lt.mpr hdeg)]
    rw [mullow_neg_neg]
  · have h1 : -get_coeff s 0 ≠ 0 := by simpa using h0
    rw [if_pos h1, if_pos h0]

theorem for_range_error {σ : Type} (body : ℕ → σ → Except SeriesError σ) (lo count : ℕ)
    (st : σ) (e : SeriesError) (h : for_range body lo count st = .error e) :
    ∃ i st1, body i st1 = .error e := by
  induction count generalizing lo st with
  | zero => cases h
  | succ count ih =>
    rw [for_range] at h
    cases hb : body lo st with
    | error e1 =>
      rw [hb] at h
      cases h
      exact ⟨lo, st, hb⟩
    | ok st1 =>
      rw [hb] at h
      exact ih (lo + 1) st1 h

theorem rat_div_int_error (q : ℚ) (d : ℤ) (e : SeriesError) (h : rat_div_int q d = .error e) :
    e = .flint_domain := by
  unfold rat_div_int at h
  split_ifs at h
  cases h; rfl

theorem trig_body_error (j : ℤ) (ssquare : fp_t) (prec i : ℕ) (st : TrigState)
    (e : SeriesError) (h : trig_body j ssquare prec i st = .error e) : e = .flint_domain := by
  unfold trig_body at h
  cases h1 : (if i ≠ 0 then rat_div_int st.prod (1 - j) else Except.ok st.prod) with
  | error e1 =>
    rw [h1] at h
    cases h
    by_cases hi : i ≠ 0
    · rw [if_pos hi] at h1
      exact rat_div_int_error _ _ _ h1
    · rw [if_neg hi] at h1
      cases h1
  | ok prod1 =>
    rw [h1] at h
    simp only at h
    cases h2 : rat_div_int prod1 j with
    | error e2 =>
      rw [h2] at h
      cases h
      exact rat_div_int_error _ _ _ h2
    | ok prod2 =>
      rw [h2] at h
      cases h

/-- Supporting C11: `series_sin` fails with the unsupported-branch error exactly when the constant
term is nonzero, for every precision and on both paths. -/
theorem series_sin_branch_error_iff (s var : fp_t) (prec : ℕ) :
    series_sin s var prec = .error .sin_const ↔ get_coeff s 0 ≠ 0 := by
  constructor
  · intro h
    by_contra h0
    unfold series_sin at h
    rw [if_neg (by simpa using h0)] at h
    by_cases hdeg : degree s > 8
    · rw [if_pos hdeg] at h
      simp [sin_series, h0] at h
    · rw [if_neg hdeg] at h
      simp only at h
      cases hl : for_range (sin_body (mullow s s prec) prec) 0 (prec / 2)
          { res_p := zero, monom := s, prod := 1 } with
      | error e =>
        rw [hl] at h
        simp only [Except.error.injEq] at h
        obtain ⟨i, st1, hb⟩ := for_range_error _ _ _ _ _ hl
        have := trig_body_error _ _ _ _ _ _ hb
        rw [h] at this
        cases this
      | ok st1 =>
        rw [hl] at h
        cases h
  · intro h
    unfold series_sin
    rw [if_pos h]

/-- Supporting C11: `series_cos` fails with the unsupported-branch error exactly when the constant
term is nonzero, for every precision and on both paths. -/
theorem series_cos_branch_error_iff (s var : fp_t) (prec : ℕ) :
    series_cos s var prec = .error .cos_const ↔ get_coeff s 0 ≠ 0 := by
  constructor
  · intro h
    by_contra h0
    unfold series_cos at h
    rw [if_neg (by simpa using h0)] at h
    by_cases hdeg : degree s > 8
    · rw [if_pos hdeg] at h
      simp [cos_series, h0] at h
    · rw [if_neg hdeg] at h
      simp only at h
      cases hl : for_range (cos_body (mullow s s prec) prec) 1 (prec / 2)
          { res_p := one, monom := mullow s s prec, prod := 1 } with
      | error e =>
        rw [hl] at h
        simp only [Except.error.injEq] at h
        obtain ⟨i, st1, hb⟩ := for_range_error _ _ _ _ _ hl
        have := trig_body_error _ _ _ _ _ _ hb
        rw [h] at this
        cases this
      | ok st1 =>
        rw [hl] at h
        cases h
  · intro h
    unfold series_cos
    rw [if_pos h]

/-- Supporting C11: for a zero constant term and `prec ≤ 65535` neither function fails, on either
path. -/
theorem series_sin_cos_succeed (s var : fp_t) (prec : ℕ) (hs : get_coeff s 0 = 0)
    (hprec : prec ≤ 65535) :
    (∃ r, series_sin s var prec = .ok r) ∧ (∃ r, series_cos s var prec = .ok r) := by
  by_cases hdeg : degree s > 8
  · constructor
    · refine ⟨compose_trunc sin_coeff s prec, ?_⟩
      unfold series_sin
      rw [if_neg (by simpa using hs), if_pos hdeg]
      simp [sin_series, hs]
    · refine ⟨compose_trunc cos_coeff s prec, ?_⟩
      unfold series_cos
      rw [if_neg (by simpa using hs), if_pos hdeg]
      simp [cos_series, hs]
  · have hd8 : degree s ≤ 8 := not_lt.mp hdeg
    obtain ⟨r, hr, _⟩ := series_sin_loop_coeff s var prec hs hd8 (by omega)
    obtain ⟨c, hc, _⟩ := series_cos_loop_coeff s var prec hs hd8 hprec
    exact ⟨⟨r, hr⟩, ⟨c, hc⟩⟩

/-- The closed-form path of `series_cos` reaches the iteration `i = 32768`, where `j` has wrapped
to `0`, and fails in `prod /= j`. -/
theorem series_cos_wrap_fails (s var : fp_t) (prec : ℕ) (hs : get_coeff s 0 = 0)
    (hdeg : degree s ≤ 8) (hprec : prec / 2 = 32767 + 1) :
    series_cos s var prec = .error .flint_domain := by
  have hnz : ∀ t < 32767, (fun i : ℕ => toShort (2 * (i : ℤ))) (1 + t) ≠ 0 ∧
      (1 + t ≠ 0 → 1 - (fun i : ℕ => toShort (2 * (i : ℤ))) (1 + t) ≠ 0) := by
    intro t ht
    exact cos_divisors_ne_zero (1 + t) (by omega) (by omega)
  obtain ⟨R, hR, _⟩ := trig_loop (fun i : ℕ => toShort (2 * (i : ℤ))) (mullow s s prec)
    prec (mullow s s prec) one 1 32767 hnz
  have hj : toShort (2 * ((1 + 32767 : ℕ) : ℤ)) = 0 := by decide
  unfold series_cos
  rw [if_neg (by simpa using hs), if_neg (by omega)]
  simp only
  rw [hprec, for_range_succ_end, cos_body_eq, hR]
  simp only
  rw [hj]
  unfold trig_body rat_div_int
  simp

/-- The closed-form path of `series_sin` reaches the iteration `i = 32768`, where `j` has wrapped
to `1`, and fails in `prod /= 1 - j`. -/
theorem series_sin_wrap_fails (s var : fp_t) (prec : ℕ) (hs : get_coeff s 0 = 0)
    (hdeg : degree s ≤ 8) (hprec : prec / 2 = 32768 + 1) :
    series_sin s var prec = .error .flint_domain := by
  have hnz : ∀ t < 32768, (fun i : ℕ => toShort (2 * (i : ℤ) + 1)) (0 + t) ≠ 0 ∧
      (0 + t ≠ 0 → 1 - (fun i : ℕ => toShort (2 * (i : ℤ) + 1)) (0 + t) ≠ 0) := by
    intro t ht
    simp only [Nat.zero_add]
    exact sin_divisors_ne_zero t (by omega)
  obtain ⟨R, hR, _⟩ := trig_loop (fun i : ℕ => toShort (2 * (i : ℤ) + 1)) (mullow s s prec)
    prec s zero 0 32768 hnz
  have hj : toShort (2 * ((0 + 32768 : ℕ) : ℤ) + 1) = 1 := by decide
  unfold series_sin
  rw [if_neg (by simpa using hs), if_neg (by omega)]
  simp only
  rw [hprec, for_range_succ_end, sin_body_eq, hR]
  simp only
  rw [hj]
  unfold trig_body rat_div_int
  simp

/-! ## The claims -/

/-- C1 (failing input).  For the constant series `4`, `n = -2` and `prec = 2` the code returns
`x·ctroot = 2` although `4^(-1/2) = 1/2`: the truncated inverse of the square of the result is
`1/4`, not `4`. -/
theorem series_nthroot_neg_two_of_four :
    valid_schedule [2, 2] 2 ∧ (∃ q : ℚ, q ^ 2 = get_coeff [4] 0) ∧
    series_nthroot (fun _ => [2, 2]) [4] (-2) [0, 1] 2 = .ok [2, 0] ∧
    series_invert (pow [2, 0] 2 2) [0, 1] 2 = .ok [1/4, 0] ∧
    get_coeff [1/4, 0] 0 ≠ get_coeff [4] 0 := by
  refine ⟨⟨⟨2, rfl, le_refl 2⟩, by simp, rfl⟩, ⟨2, by norm_num [get_coeff]⟩, by decide!,
    by decide!, by decide!⟩

/-- C2.  For a series `s` without constant term, a precision `prec ≥ 1` (in particular 4, 8, 16
and 32) and a convergence schedule that starts at a precision `≤ 2`, at most doubles and ends at
`prec`: `series_lambertw` succeeds with a series `p`, `exp_series(p, prec)` is defined, and
`mul(p, exp_series(p, prec), prec)` equals `s` on every coefficient below `prec`. -/
theorem series_lambertw_correct (step_list : ℕ → List ℕ) (s var : fp_t) (prec : ℕ)
    (hs : get_coeff s 0 = 0) (hprec : 1 ≤ prec)
    (hsched : valid_schedule (step_list prec) prec) :
    ∃ p e, series_lambertw step_list s var prec = .ok p ∧ series_exp p var prec = .ok e ∧
      ∀ k < prec, get_coeff (mul p e prec) k = get_coeff s k := by
  have hinit : lambertw_inv s 1 zero := by
    unfold lambertw_inv
    rw [toPS_zero, zero_mul]
    refine ⟨CongrX.refl _ _, ?_⟩
    apply CongrX.symm
    rw [congrX_one_zero_iff, coeff_toPS]
    exact hs
  obtain ⟨p, hp, hinv⟩ := lambertw_loop s var (step_list prec) zero 1 (le_refl 1) hinit
    (schedule_ok_of_valid _ _ hsched) (schedule_pos_of_valid _ _ hprec hsched)
  rw [hsched.2.2] at hinv
  simp only [Option.getD_some] at hinv
  obtain ⟨hp0, hpk⟩ := hinv
  have hp0c : get_coeff p 0 = 0 := by
    have := (congrX_one_zero_iff _).mp hp0
    rwa [coeff_toPS] at this
  refine ⟨p, compose_trunc exp_coeff p prec, ?_, ?_, ?_⟩
  · unfold series_lambertw
    rw [if_neg (by simpa using hs)]
    exact hp
  · simp [series_exp, exp_series, hp0c]
  · rw [← congrX_toPS_iff]
    refine (toPS_mullow_congr _ _ prec).trans ?_
    exact (CongrX.mul_left _ (toPS_compose_trunc exp_coeff p prec)).trans hpk

/-- C2 (witness): `s = x + 3x²`, `prec = 8`, schedule `[2, 4, 8]`. -/
theorem series_lambertw_correct_witness :
    get_coeff [0, 1, 3] 0 = 0 ∧ 1 ≤ 8 ∧ valid_schedule [2, 4, 8] 8 ∧
    ∃ p e, series_lambertw (fun _ => [2, 4, 8]) [0, 1, 3] [0, 1] 8 = .ok p ∧
      series_exp p [0, 1] 8 = .ok e ∧
      ∀ k < 8, get_coeff (mul p e 8) k = get_coeff [0, 1, 3] k :=
  ⟨rfl, by decide, ⟨⟨2, rfl, le_refl 2⟩, by simp, rfl⟩,
    series_lambertw_correct (fun _ => [2, 4, 8]) [0, 1, 3] [0, 1] 8 rfl (by decide)
      ⟨⟨2, rfl, le_refl 2⟩, by simp, rfl⟩⟩

/-- C3 (amended).  For a series without constant term, and a precision of at most 32769 on the
closed-form path (so that the 16-bit `j` does not wrap), `series_sin` and the backend primitive
`sin_series` both succeed and agree on every coefficient below `prec`; they agree on all degrees
when `s` has no coefficient at or above `prec`. -/
theorem series_sin_eq_sin_series (s var : fp_t) (prec : ℕ) (hs : get_coeff s 0 = 0)
    (hprec : degree s ≤ 8 → prec ≤ 32769) :
    ∃ r r1, series_sin s var prec = .ok r ∧ sin_series s prec = .ok r1 ∧
      (∀ k < prec, get_coeff r k = get_coeff r1 k) ∧
      ((∀ k, prec ≤ k → get_coeff s k = 0) → ∀ k, get_coeff r k = get_coeff r1 k) := by
  have hprim : sin_series s prec = .ok (compose_trunc sin_coeff s prec) := by
    simp [sin_series, hs]
  by_cases hdeg : degree s > 8
  · refine ⟨compose_trunc sin_coeff s prec, compose_trunc sin_coeff s prec, ?_, hprim,
      fun _ _ => rfl, fun _ _ => rfl⟩
    unfold series_sin
    rw [if_neg (by simpa using hs), if_pos hdeg, hprim]
  · have hd8 : degree s ≤ 8 := not_lt.mp hdeg
    obtain ⟨r, hr, hlow, hhigh⟩ := series_sin_closed_form s var prec hs hd8 (hprec hd8)
    refine ⟨r, compose_trunc sin_coeff s prec, hr, hprim, hlow, ?_⟩
    intro hz k
    by_cases hk : k < prec
    · exact hlow k hk
    · have hk1 : prec ≤ k := not_lt.mp hk
      rw [hhigh k hk1, get_coeff_compose_trunc_of_le _ _ _ _ hk1, hz k hk1]
      simp

/-- C3 (witness): the spec's example `s = x − x³/6`, `prec = 4`. -/
theorem series_sin_eq_sin_series_witness :
    get_coeff [0, 1, 0, -1/6] 0 = 0 ∧ (degree [0, 1, 0, -1/6] ≤ 8 → 4 ≤ 32769) ∧
    ∃ r r1, series_sin [0, 1, 0, -1/6] [0, 1] 4 = .ok r ∧ sin_series [0, 1, 0, -1/6] 4 = .ok r1 ∧
      (∀ k < 4, get_coeff r k = get_coeff r1 k) ∧
      ((∀ k, 4 ≤ k → get_coeff [0, 1, 0, -1/6] k = 0) → ∀ k, get_coeff r k = get_coeff r1 k) :=
  ⟨rfl, fun _ => by decide,
    series_sin_eq_sin_series [0, 1, 0, -1/6] [0, 1] 4 rfl (fun _ => by decide)⟩

/-- C3 (counterexample).  For `s = x + x⁵` and `prec = 4` the closed-form path keeps the
coefficient of `x⁵` of its first term, which the primitive `sin_series` truncates away. -/
theorem series_sin_ne_sin_series_above_prec :
    series_sin [0, 1, 0, 0, 0, 1] [0, 1] 4 = .ok [0, 1, 0, -1/6, 0, 1] ∧
    sin_series [0, 1, 0, 0, 0, 1] 4 = .ok [0, 1, 0, -1/6] ∧
    get_coeff [0, 1, 0, -1/6, 0, 1] 5 ≠ get_coeff [0, 1, 0, -1/6] 5 := by
  refine ⟨by decide!, by decide!, by decide!⟩

/-- C4 (amended).  For a series without constant term, and a precision of at most 32767 on the
closed-form path (so that the 16-bit `j` does not wrap), `series_cos` and the backend primitive
`cos_series` both succeed and agree on every coefficient below `prec`; they agree on all degrees
when `prec ≥ 1`. -/
theorem series_cos_eq_cos_series (s var : fp_t) (prec : ℕ) (hs : get_coeff s 0 = 0)
    (hprec : degree s ≤ 8 → prec ≤ 32767) :
    ∃ r r1, series_cos s var prec = .ok r ∧ cos_series s prec = .ok r1 ∧
      (∀ k < prec, get_coeff r k = get_coeff r1 k) ∧
      (1 ≤ prec → ∀ k, get_coeff r k = get_coeff r1 k) := by
  have hprim : cos_series s prec = .ok (compose_trunc cos_coeff s prec) := by
    simp [cos_series, hs]
  by_cases hdeg : degree s > 8
  · refine ⟨compose_trunc cos_coeff s prec, compose_trunc cos_coeff s prec, ?_, hprim,
      fun _ _ => rfl, fun _ _ => rfl⟩
    unfold series_cos
    rw [if_neg (by simpa using hs), if_pos hdeg, hprim]
  · have hd8 : degree s ≤ 8 := not_lt.mp hdeg
    obtain ⟨r, hr, hlow, hhigh⟩ := series_cos_closed_form s var prec hs hd8 (hprec hd8)
    refine ⟨r, compose_trunc cos_coeff s prec, hr, hprim, hlow, ?_⟩
    intro h1 k
    by_cases hk : k < prec
    · exact hlow k hk
    · have hk1 : prec ≤ k := not_lt.mp hk
      rw [hhigh k hk1, get_coeff_compose_trunc_of_le _ _ _ _ hk1, if_neg (by omega)]

/-- C4 (witness): `s = x − x³/6`, `prec = 6`. -/
theorem series_cos_eq_cos_series_witness :
    get_coeff [0, 1, 0, -1/6] 0 = 0 ∧ (degree [0, 1, 0, -1/6] ≤ 8 → 6 ≤ 32767) ∧
    ∃ r r1, series_cos [0, 1, 0, -1/6] [0, 1] 6 = .ok r ∧ cos_series [0, 1, 0, -1/6] 6 = .ok r1 ∧
      (∀ k < 6, get_coeff r k = get_coeff r1 k) ∧
      (1 ≤ 6 → ∀ k, get_coeff r k = get_coeff r1 k) :=
  ⟨rfl, fun _ => by decide,
    series_cos_eq_cos_series [0, 1, 0, -1/6] [0, 1] 6 rfl (fun _ => by decide)⟩

/-- C4 (counterexample).  For `prec = 0` the closed-form path returns the constant `1`, which is
never truncated, while the primitive `cos_series` returns the empty truncation. -/
theorem series_cos_ne_cos_series_prec_zero :
    series_cos [0, 1] [0, 1] 0 = .ok [1] ∧ cos_series [0, 1] 0 = .ok [] ∧
    get_coeff [1] 0 ≠ get_coeff [] 0 := by
  refine ⟨by decide!, by decide!, by decide!⟩

/-- C5 (failing input).  For `s = x` and `prec = 32769` both closed-form paths succeed, but in the
last iteration of `series_cos` (`i = 16384`) the `const short j = 2 * i` wraps to `-32768`, the
coefficient of `x^32768` of the cosine is wrong, and the coefficient of `x^32768` of
`sin² + cos²` is not that of the constant series `1`. -/
theorem series_sin_cos_short_wrap :
    ∃ rs rc, series_sin [0, 1] [0, 1] 32769 = .ok rs ∧ series_cos [0, 1] [0, 1] 32769 = .ok rc ∧
      get_coeff (add (mul rs rs 32769) (mul rc rc 32769)) 32768 ≠ get_coeff one 32768 := by
  obtain ⟨rs, hrs, hsc⟩ := series_sin_below [0, 1] [0, 1] 32769 rfl (fun _ => le_refl _)
  obtain ⟨rc, hrc, hcc⟩ := series_cos_defect [0, 1] [0, 1] 32769 16383 rfl degree_var
    (by norm_num) (by norm_num) (le_refl _)
  refine ⟨rs, rc, hrs, hrc, ?_⟩
  rw [toPS_var] at hsc hcc
  rw [cos_prod_iter_wrapped] at hcc
  have e : 2 * (16383 + 1) = 32769 - 1 := by norm_num
  rw [e] at hcc
  have hd := pythagorean_defect (toPS rs) (toPS rc) _ 32769 (by norm_num) hsc hcc
  have h1 := (congrX_iff 32769 _ _).mp (toPS_sq_sum rs rc 32769) (32769 - 1) (by norm_num)
  rw [hd, coeff_toPS] at h1
  have e2 : 32769 - 1 = 32768 := by norm_num
  rw [e2] at h1
  rw [h1, get_coeff_one, if_neg (by norm_num), PowerSeries.coeff_one, if_neg (by norm_num),
    zero_add]
  have := cos_wrap_defect_ne_zero
  intro h
  apply this
  linarith

/-- C6 (failing input).  For `s = x` and `prec = 32770` the closed-form path succeeds, but in the
iteration `i = 16384` the `const short j = 2 * i + 1` wraps to `-32767`: the coefficient of
`x^32769` is `sin_coeff 32767 / 32768 / (-32767)` instead of the Taylor coefficient
`sin_coeff 32769 = sin_coeff 32767 / (-32768) / 32769`. -/
theorem series_sin_short_wrap :
    ∃ r, series_sin [0, 1] [0, 1] 32770 = .ok r ∧
      get_coeff r 32769 = sin_coeff 32767 / 32768 / (-32767) ∧
      get_coeff r 32769 ≠ get_coeff (compose_trunc sin_coeff [0, 1] 32770) 32769 := by
  obtain ⟨r, hr, hk⟩ := series_sin_loop_coeff [0, 1] [0, 1] 32770 rfl degree_var (by norm_num)
  have hsum : ∀ (f : ℕ → ℚ), (∑ t in Finset.range (32770 / 2),
      f t * coeff ℚ 32769 (toPS [0, 1] ^ (2 * t + 1))) = f 16384 := by
    intro f
    rw [Finset.sum_eq_single 16384]
    · rw [toPS_var, PowerSeries.coeff_X_pow, if_pos (by norm_num), mul_one]
    · intro t _ ht
      rw [toPS_var, PowerSeries.coeff_X_pow, if_neg (by omega), mul_zero]
    · intro h
      exact absurd (Finset.mem_range.mpr (by norm_num)) h
  have hval : get_coeff r 32769 = sin_coeff 32767 / 32768 / (-32767) := by
    rw [hk 32769 (by norm_num),
      hsum (fun t => prod_iter (fun i : ℕ => toShort (2 * (i : ℤ) + 1)) 0 (t + 1))]
    exact sin_prod_iter_wrapped
  refine ⟨r, hr, hval, ?_⟩
  rw [hval, sin_series_coeff [0, 1] 32770 32769 (by norm_num),
    hsum (fun t => sin_coeff (2 * t + 1))]
  have e : 2 * 16384 + 1 = 32769 := by norm_num
  rw [e, sin_coeff_32769]
  have hne : sin_coeff 32767 ≠ 0 := sin_coeff_odd_ne_zero 16383
  intro h
  field_simp at h
  norm_num at h
  exact hne h

/-- C7 (failing input).  For `s = x²`, `n = 2` and `prec = 3` the code throws the Laurent error
of `series_invert` instead of returning `x`. -/
theorem series_nthroot_sqrt_x_squared :
    series_nthroot (fun _ => [2, 3]) [0, 0, 1] 2 [0, 1] 3 = .error .laurent := by
  decide!

/-- C8 (failing input).  For `s = x^32770` and `n = 3` the valuation `32770` is not divisible by
`3`, but it is read into a `short` as `-32766`, which is: the Puiseux check passes, the series is
multiplied by `var^32766`, and the code fails in the division by the zero constant term. -/
theorem series_nthroot_short_valuation :
    ldegree (List.replicate 32770 0 ++ [1]) = 32770 ∧ ¬ ((3 : ℤ) ∣ 32770) ∧
    series_nthroot (fun _ => [2, 32771]) (List.replicate 32770 0 ++ [1]) 3 [0, 1] 32771
      = .error .flint_domain :=
  ⟨ldegree_replicate_append 32770 1 one_ne_zero, by decide,
    nthroot_wrapped_valuation _ _ _ _ (ldegree_replicate_append 32770 1 one_ne_zero)
      (by rw [get_coeff_replicate_append, if_pos (by decide)])⟩

/-- C9 (failing input).  For `s = 2·x^32769` and `n = 3` the valuation `32769` is divisible by
`3` and the leading coefficient `2` has no rational cube root, but the valuation is read into a
`short` as `-32767`, which `3` does not divide: the code throws the Puiseux error instead of the
no-exact-root error. -/
theorem series_nthroot_short_valuation_root :
    ldegree (List.replicate 32769 0 ++ [2]) = 32769 ∧ (3 : ℤ) ∣ 32769 ∧
    (¬ ∃ q : ℚ, q ^ 3 = 2) ∧
    series_nthroot (fun _ => [2, 32770]) (List.replicate 32769 0 ++ [2]) 3 [0, 1] 32770
      = .error .puiseux := by
  refine ⟨ldegree_replicate_append 32769 2 two_ne_zero, by decide, ?_,
    nthroot_wrapped_valuation_puiseux _ _ _ _ (ldegree_replicate_append 32769 2 two_ne_zero)⟩
  intro h
  obtain ⟨r, hr, _⟩ := root_complete 2 3 (by decide) h
  rw [root_two_three] at hr
  cases hr

/-- C10.  `series_lambertw` on a series with a nonzero constant term fails with the
unsupported-branch error, whatever the schedule (no Newton step is reached); on a series with a
zero constant term this error is never raised. -/
theorem series_lambertw_branch_error (step_list : ℕ → List ℕ) (s var : fp_t) (prec : ℕ) :
    (get_coeff s 0 ≠ 0 → series_lambertw step_list s var prec = .error .lambertw_const) ∧
    (get_coeff s 0 = 0 → series_lambertw step_list s var prec ≠ .error .lambertw_const) := by
  constructor
  · intro h
    unfold series_lambertw
    rw [if_pos h]
  · intro h herr
    unfold series_lambertw at herr
    rw [if_neg (by simpa using h)] at herr
    obtain ⟨step, p, hb⟩ := for_steps_error _ _ _ _ herr
    rcases lambertw_body_error _ _ _ _ _ hb with h1 | h1 <;> cases h1

/-- C10 (witness): the constant series `1` and the series `x`. -/
theorem series_lambertw_branch_error_witness :
    series_lambertw (fun _ => [2, 4]) [1] [0, 1] 4 = .error .lambertw_const ∧
    series_lambertw (fun _ => [2, 4]) [0, 1] [0, 1] 4 ≠ .error .lambertw_const :=
  ⟨(series_lambertw_branch_error (fun _ => [2, 4]) [1] [0, 1] 4).1 (by decide!),
    (series_lambertw_branch_error (fun _ => [2, 4]) [0, 1] [0, 1] 4).2 rfl⟩

/-- C11 (failing input).  For `s = x` (zero constant term, closed-form path) `series_cos` fails
at `prec = 65536` and `series_sin` fails at `prec = 65538`: the loop reaches `i = 32768`, where
the `const short j` has wrapped to `0` (cosine) or to `1` (sine, so `1 - j = 0`), and `prod` is
divided by zero. -/
theorem series_sin_cos_wrap_fail :
    get_coeff [0, 1] 0 = 0 ∧ degree [0, 1] ≤ 8 ∧
    series_cos [0, 1] [0, 1] 65536 = .error .flint_domain ∧
    series_sin [0, 1] [0, 1] 65538 = .error .flint_domain :=
  ⟨rfl, degree_var, series_cos_wrap_fails [0, 1] [0, 1] 65536 rfl degree_var (by norm_num),
    series_sin_wrap_fails [0, 1] [0, 1] 65538 rfl degree_var (by norm_num)⟩

/-- C12.  `series_invert` fails with the Laurent (division-by-zero class) error exactly when the
constant term of `s` is zero; otherwise it returns `r = inv_series(s, prec)`, and
`mul(s, r, prec)` is the constant series `1` truncated to `prec`, on every coefficient. -/
theorem series_invert_spec (s var : fp_t) (prec : ℕ) :
    (series_invert s var prec = .error .laurent ↔ get_coeff s 0 = 0) ∧
    (get_coeff s 0 ≠ 0 → ∃ r, series_invert s var prec = .ok r ∧ inv_series s prec = .ok r ∧
      ∀ k, get_coeff (mul s r prec) k = if k < prec then get_coeff one k else 0) := by
  constructor
  · constructor
    · intro h
      by_contra h0
      rw [series_invert_ok s var prec h0] at h
      cases h
    · intro h
      unfold series_invert
      rw [if_neg (by simpa using h)]
  · intro h0
    refine ⟨inv_coeffs s prec, series_invert_ok s var prec h0, by simp [inv_series, h0], ?_⟩
    intro k
    by_cases hk : k < prec
    · rw [if_pos hk]
      have h := toPS_mul_inv_coeffs s prec h0
      have h1 := (toPS_mullow_congr s (inv_coeffs s prec) prec).trans h
      rw [← toPS_one] at h1
      exact (congrX_toPS_iff prec _ _).mp h1 k hk
    · rw [if_neg hk]
      exact get_coeff_mullow_of_le _ _ _ _ (not_lt.mp hk)

/-- C12 (witness): the series `x` (zero constant term) and the series `1 + x`. -/
theorem series_invert_spec_witness :
    series_invert [0, 1] [0, 1] 4 = .error .laurent ∧
    get_coeff [1, 1] 0 ≠ 0 ∧
    ∃ r, series_invert [1, 1] [0, 1] 4 = .ok r ∧ inv_series [1, 1] 4 = .ok r ∧
      ∀ k, get_coeff (mul [1, 1] r 4) k = if k < 4 then get_coeff one k else 0 :=
  ⟨(series_invert_spec [0, 1] [0, 1] 4).1.2 rfl, by decide!,
    (series_invert_spec [1, 1] [0, 1] 4).2 (by decide!)⟩

/-- C13.  `series_nthroot(s, -1, prec)` is `series_invert(s, prec)`: the same series when the
constant term is nonzero and the same Laurent failure when it is zero, whatever the valuation;
the exponent is checked before the valuation is read, so no Puiseux error is raised. -/
theorem series_nthroot_neg_one (step_list : ℕ → List ℕ) (s var : fp_t) (prec : ℕ) :
    series_nthroot step_list s (-1) var prec = series_invert s var prec ∧
    (get_coeff s 0 ≠ 0 → series_nthroot step_list s (-1) var prec = inv_series s prec) ∧
    (get_coeff s 0 = 0 → series_nthroot step_list s (-1) var prec = .error .laurent) := by
  have h : series_nthroot step_list s (-1) var prec = series_invert s var prec := by
    unfold series_nthroot
    rw [if_neg (by decide), if_neg (by decide), if_pos rfl]
  refine ⟨h, ?_, ?_⟩
  · intro h0
    rw [h]
    unfold series_invert
    rw [if_pos h0]
  · intro h0
    rw [h]
    unfold series_invert
    rw [if_neg (by simpa using h0)]

/-- C13 (witness): the series `1 + x` and the series `x³` of valuation 3. -/
theorem series_nthroot_neg_one_witness :
    get_coeff [1, 1] 0 ≠ 0 ∧
    series_nthroot (fun _ => [2, 4]) [1, 1] (-1) [0, 1] 4 = inv_series [1, 1] 4 ∧
    get_coeff [0, 0, 0, 1] 0 = 0 ∧
    series_nthroot (fun _ => [2, 4]) [0, 0, 0, 1] (-1) [0, 1] 4 = .error .laurent :=
  ⟨by decide!, (series_nthroot_neg_one (fun _ => [2, 4]) [1, 1] [0, 1] 4).2.1 (by decide!), rfl,
    (series_nthroot_neg_one (fun _ => [2, 4]) [0, 0, 0, 1] [0, 1] 4).2.2 rfl⟩

/-- C14.  `series_nthroot(s, 1, prec)` succeeds and returns `s` itself, for every series (the
zero series and series with coefficients at or above `prec` included) and every `prec`. -/
theorem series_nthroot_one (step_list : ℕ → List ℕ) (s var : fp_t) (prec : ℕ) :
    series_nthroot step_list s 1 var prec = .ok s := by
  unfold series_nthroot
  rw [if_neg (by decide), if_pos rfl]

/-- C15.  `series_nthroot(s, 0, prec)` succeeds and returns the constant series `1`, whatever
the series `s`. -/
theorem series_nthroot_zero (step_list : ℕ → List ℕ) (s var : fp_t) (prec : ℕ) :
    series_nthroot step_list s 0 var prec = .ok one := by
  unfold series_nthroot
  rw [if_pos rfl]

/-- C16.  `series_acos` fails for every series and every precision. -/
theorem series_acos_fails (s var : fp_t) (prec : ℕ) :
    series_acos s var prec = .error .acos_unimplemented ∧
    ∀ r, series_acos s var prec ≠ .ok r := by
  refine ⟨rfl, ?_⟩
  intro r h
  cases h

/-- C17.  In `series_lambertw` with `s` of zero constant term: at every schedule step of
precision `step ≥ 1`, from an iterate `p` with zero constant term, `series_exp` succeeds, the
constant term of `e·(p+1)` is `1`, the inner `series_invert` succeeds (it never takes its Laurent
branch) and the new iterate has zero constant term; so over every schedule of such steps the
loop, started at `p = 0`, succeeds with an iterate of zero constant term and the function
returns it. -/
theorem series_lambertw_const_term (step_list : ℕ → List ℕ) (s var : fp_t) (prec : ℕ)
    (hs : get_coeff s 0 = 0) :
    (∀ step p, 1 ≤ step → get_coeff p 0 = 0 →
      ∃ e p3 p1, series_exp p var step = .ok e ∧
        get_coeff (mul e (add p one) step) 0 = 1 ∧
        series_invert (mul e (add p one) step) var step = .ok p3 ∧
        lambertw_body s var step p = .ok p1 ∧ get_coeff p1 0 = 0) ∧
    (get_coeff zero 0 = 0) ∧
    ((∀ x ∈ step_list prec, 1 ≤ x) →
      ∃ p, series_lambertw step_list s var prec = .ok p ∧ get_coeff p 0 = 0) := by
  refine ⟨fun step p hstep hp => lambertw_body_const_term s var step p hs hstep hp,
    get_coeff_zero 0, ?_⟩
  intro hpos
  obtain ⟨p, hl, hp⟩ := lambertw_loop_const_term s var (step_list prec) zero hs hpos
    (get_coeff_zero 0)
  refine ⟨p, ?_, hp⟩
  unfold series_lambertw
  rw [if_neg (by simpa using hs)]
  exact hl

/-- C17 (witness): `s = x + 3x²`, the schedule `[2, 4, 8]`, and a step of precision 4 from the
iterate `x`. -/
theorem series_lambertw_const_term_witness :
    get_coeff [0, 1, 3] 0 = 0 ∧
    (∃ e p3 p1, series_exp [0, 1] [0, 1] 4 = .ok e ∧
        get_coeff (mul e (add [0, 1] one) 4) 0 = 1 ∧
        series_invert (mul e (add [0, 1] one) 4) [0, 1] 4 = .ok p3 ∧
        lambertw_body [0, 1, 3] [0, 1] 4 [0, 1] = .ok p1 ∧ get_coeff p1 0 = 0) ∧
    (∀ x ∈ [2, 4, 8], 1 ≤ x) ∧
    ∃ p, series_lambertw (fun _ => [2, 4, 8]) [0, 1, 3] [0, 1] 8 = .ok p ∧ get_coeff p 0 = 0 :=
  ⟨rfl,
    (series_lambertw_const_term (fun _ => [2, 4, 8]) [0, 1, 3] [0, 1] 8 rfl).1 4 [0, 1]
      (by decide) rfl,
    by decide,
    (series_lambertw_const_term (fun _ => [2, 4, 8]) [0, 1, 3] [0, 1] 8 rfl).2.2 (by decide)⟩

/-- C18.  In the Newton loop of `series_nthroot`, for `n ≥ 2` and a normalized series `sn` with
constant term `1`: if the iterate `x` satisfies `x^n·sn = 1` on all coefficients below `k` and
`step ≤ 2k`, the update `x + (x − x^(n+1)·sn)/n` evaluated at precision `step` satisfies it on all
coefficients below `step`; hence from `x = 1`, over a schedule that starts at a precision `≤ 2`,
at most doubles and ends at `prec`, the loop ends with `x^n·sn = 1` on all coefficients below
`prec`. -/
theorem nthroot_newton_invariant (step_list : ℕ → List ℕ) (sn : fp_t) (n : ℕ) (hn : 2 ≤ n)
    (hsn : get_coeff sn 0 = 1) :
    (∀ x k step, (∀ i < k, get_coeff (mul_full (pow_full x n) sn) i = get_coeff one i) →
      step ≤ 2 * k →
      ∃ x1, nthroot_body sn n step x = .ok x1 ∧
        x1 = add x (scalar_div (sub x (mul (pow x (n + 1) step) sn step)) (n : ℚ)) ∧
        ∀ i < step, get_coeff (mul_full (pow_full x1 n) sn) i = get_coeff one i) ∧
    (∀ prec, valid_schedule (step_list prec) prec →
      ∃ x, for_steps (nthroot_body sn n) (step_list prec) one = .ok x ∧
        ∀ i < prec, get_coeff (mul_full (pow_full x n) sn) i = get_coeff one i) := by
  constructor
  · intro x k step hk hstep
    refine ⟨_, rfl, rfl, ?_⟩
    rw [newton_residual_iff] at hk ⊢
    rw [toPS_nthroot_update]
    apply newton_root_step n (by omega) (toPS x) (toPS sn) _ k step hk hstep
    exact (toPS_mullow_congr _ _ step).trans (CongrX.mul_right _ (toPS_pow_congr x (n + 1) step))
  · intro prec hsched
    have hinit : CongrX 1 (toPS one ^ n * toPS sn) 1 := by
      rw [toPS_one, one_pow, one_mul, congrX_iff]
      intro i hi
      have : i = 0 := by omega
      subst this
      rw [coeff_toPS, hsn, PowerSeries.coeff_one, if_pos rfl]
    obtain ⟨x, hx, hxc⟩ := nthroot_loop n (by omega) sn (step_list prec) one 1 hinit
      (schedule_ok_of_valid _ _ hsched)
    rw [hsched.2.2] at hxc
    simp only [Option.getD_some] at hxc
    exact ⟨x, hx, (newton_residual_iff x sn n prec).mpr hxc⟩

/-- C18 (witness): `n = 2`, `sn = 1 + x`, one step of precision 2 from `x = 1` (right below
degree 1), and the schedule `[2, 4]`. -/
theorem nthroot_newton_invariant_witness :
    2 ≤ 2 ∧ get_coeff [1, 1] 0 = 1 ∧
    (∀ i < 1, get_coeff (mul_full (pow_full one 2) [1, 1]) i = get_coeff one i) ∧ 2 ≤ 2 * 1 ∧
    (∃ x1, nthroot_body [1, 1] 2 2 one = .ok x1 ∧
        x1 = add one (scalar_div (sub one (mul (pow one (2 + 1) 2) [1, 1] 2)) ((2 : ℕ) : ℚ)) ∧
        ∀ i < 2, get_coeff (mul_full (pow_full x1 2) [1, 1]) i = get_coeff one i) ∧
    valid_schedule [2, 4] 4 ∧
    (∃ x, for_steps (nthroot_body [1, 1] 2) [2, 4] one = .ok x ∧
        ∀ i < 4, get_coeff (mul_full (pow_full x 2) [1, 1]) i = get_coeff one i) := by
  have hlow : ∀ i < 1, get_coeff (mul_full (pow_full one 2) [1, 1]) i = get_coeff one i := by
    intro i hi
    have : i = 0 := by omega
    subst this
    decide!
  have hv : valid_schedule [2, 4] 4 := ⟨⟨2, rfl, le_refl 2⟩, by simp, rfl⟩
  exact ⟨le_refl 2, rfl, hlow, by decide,
    (nthroot_newton_invariant (fun _ => [2, 4]) [1, 1] 2 (le_refl 2) rfl).1 one 1 2 hlow
      (by decide),
    hv, (nthroot_newton_invariant (fun _ => [2, 4]) [1, 1] 2 (le_refl 2) rfl).2 4 hv⟩

/-- C19.  For a series `s` with zero constant term and polynomial degree at most 8, and every
`prec`: `series_sin(-s, prec)` is `-series_sin(s, prec)` and `series_cos(-s, prec)` is
`series_cos(s, prec)`, as exact equalities of the results; for `prec ≤ 65535` all four calls
return a series. -/
theorem series_sin_odd_cos_even (s var : fp_t) (prec : ℕ) (hs : get_coeff s 0 = 0)
    (hdeg : degree s ≤ 8) :
    (series_sin (neg s) var prec =
      match series_sin s var prec with
      | .ok r => .ok (neg r)
      | .error e => .error e) ∧
    series_cos (neg s) var prec = series_cos s var prec ∧
    (prec ≤ 65535 → ∃ r c, series_sin s var prec = .ok r ∧
      series_sin (neg s) var prec = .ok (neg r) ∧ series_cos s var prec = .ok c ∧
      series_cos (neg s) var prec = .ok c) := by
  refine ⟨series_sin_neg s var prec hdeg, series_cos_neg s var prec hdeg, ?_⟩
  intro hprec
  obtain ⟨r, hr, _⟩ := series_sin_loop_coeff s var prec hs hdeg (by omega)
  obtain ⟨c, hc, _⟩ := series_cos_loop_coeff s var prec hs hdeg hprec
  refine ⟨r, c, hr, ?_, hc, ?_⟩
  · rw [series_sin_neg s var prec hdeg, hr]
  · rw [series_cos_neg s var prec hdeg, hc]

/-- C19 (witness): `s = x − x³/6`, `prec = 6`. -/
theorem series_sin_odd_cos_even_witness :
    get_coeff [0, 1, 0, -1/6] 0 = 0 ∧ degree [0, 1, 0, -1/6] ≤ 8 ∧
    (series_sin (neg [0, 1, 0, -1/6]) [0, 1] 6 =
      match series_sin [0, 1, 0, -1/6] [0, 1] 6 with
      | .ok r => .ok (neg r)
      | .error e => .error e) ∧
    series_cos (neg [0, 1, 0, -1/6]) [0, 1] 6 = series_cos [0, 1, 0, -1/6] [0, 1] 6 ∧
    (6 ≤ 65535 → ∃ r c, series_sin [0, 1, 0, -1/6] [0, 1] 6 = .ok r ∧
      series_sin (neg [0, 1, 0, -1/6]) [0, 1] 6 = .ok (neg r) ∧
      series_cos [0, 1, 0, -1/6] [0, 1] 6 = .ok c ∧
      series_cos (neg [0, 1, 0, -1/6]) [0, 1] 6 = .ok c) :=
  ⟨rfl, by decide!, series_sin_odd_cos_even [0, 1, 0, -1/6] [0, 1] 6 rfl (by decide!)⟩

end SymEngine
